import Mathlib

/-!
Formal model of the BF6 voice switcher core (`src/main.rs`).

The program is a Windows GUI tool that backs up, activates (via directory
junctions) and removes localized voice-asset packs of a game installation.
We give a shallow embedding of its core routines:

* `find_voice_files` / `findChildren` — the recursive asset discovery
  (`find_voice_files` / `find_voice_files_recursive` in the source);
* `delete_voice_files` — removal of discovered folders and control files;
* `backup_files` — snapshot capture into the backup store;
* `restore_files` — activation of a snapshot with the version guard;
* `refresh_backups` — listing of the backup store;
* `extract_vdf_value`, `get_library_folders`, `parse_app_manifest`,
  `parse_steam_info`, `detect_steam` — the Steam configuration parser.

The filesystem is modelled as a tree of entries (`Entry`); a junction
(link point) carries the children of its target as seen when the link is
followed.  External effects whose success depends on the OS (spawning
`cmd`, the exit status of `rmdir`/`mklink`, `fs::remove_file`, `fs::copy`,
`fs::create_dir_all`, `fs::write`) are modelled by environments of
per-path success flags; on success the effect is applied to the tree, on
failure the tree is unchanged.
-/

namespace VoiceSwitcher

/-- A path relative to some root, as a list of components. -/
abbrev Path := List String

/-- A filesystem entry: ordinary file with contents, ordinary directory,
or a directory junction (link point).  A junction carries the children of
its target, as seen when the link is followed. -/
inductive Entry where
  | file (content : String) : Entry
  | dir (children : List (String × Entry)) : Entry
  | junction (children : List (String × Entry)) : Entry

/-- Models `Self::is_junction(&path)`: the reparse-point attribute check. -/
def Entry.isJunction : Entry → Bool
  | .junction _ => true
  | _ => false

/-- Models `path.is_dir() || Self::is_junction(&path)` in the scanner:
true for ordinary directories and for junctions. -/
def Entry.isDirLike : Entry → Bool
  | .file _ => false
  | _ => true

/-- First child with the given name (directory listing lookup). -/
def lookupChild (name : String) : List (String × Entry) → Option Entry
  | [] => none
  | (n, e) :: rest => if n = name then some e else lookupChild name rest

/-- Resolve a relative path in a tree.  Intermediate components resolve
through both ordinary directories and junctions (Windows path
resolution); the final entry is returned unresolved, matching
`fs::symlink_metadata`. -/
def getAt : Path → Entry → Option Entry
  | [], e => some e
  | _ :: _, .file _ => none
  | n :: p, .dir cs =>
    match lookupChild n cs with
    | some c => getAt p c
    | none => none
  | n :: p, .junction cs =>
    match lookupChild n cs with
    | some c => getAt p c
    | none => none

/-- Models `path.exists()` on a relative path under a root. -/
def existsAt (p : Path) (e : Entry) : Bool :=
  (getAt p e).isSome

/-- Remove the first child with the given name. -/
def removeChild (name : String) : List (String × Entry) → List (String × Entry)
  | [] => []
  | (n, e) :: rest => if n = name then rest else (n, e) :: removeChild name rest

/-- Apply `g` to every child with the given name (directory update
step used when a removal happens deeper in the tree). -/
def updateChildren (n : String) (g : Entry → Entry)
    (cs : List (String × Entry)) : List (String × Entry) :=
  cs.map (fun mc => if mc.1 = n then (mc.1, g mc.2) else mc)

/-- Remove the entry at a (non-empty) relative path; identity if the path
does not lead anywhere.  Duplicated names are updated consistently with
`lookupChild` (the first occurrence is the one reached). -/
def removeAt : Path → Entry → Entry
  | [], e => e
  | [n], .dir cs => .dir (removeChild n cs)
  | [n], .junction cs => .junction (removeChild n cs)
  | [_], .file c => .file c
  | n :: p, .dir cs => .dir (updateChildren n (fun c => removeAt p c) cs)
  | n :: p, .junction cs => .junction (updateChildren n (fun c => removeAt p c) cs)
  | _ :: _, .file c => .file c
termination_by p _ => p.length
decreasing_by all_goals simp

/-- The recursive scan of `find_voice_files_recursive`, one directory
listing at a time.  `fns` are the acceptable folder names, `tns` the
acceptable control-file names, `pre` the path of the current directory
relative to the scan root.  A junction is recorded when its name matches
a folder name and is never descended into; an ordinary directory with a
matching name is recorded and not descended into; any other ordinary
directory is recursed into; a file is recorded when its name matches a
control-file name. -/
def findChildren (fns tns : List String) (pre : Path) :
    List (String × Entry) → List Path × List Path
  | [] => ([], [])
  | (name, Entry.file _) :: rest =>
    let there := findChildren fns tns pre rest
    if tns.contains name then (there.1, (pre ++ [name]) :: there.2) else there
  | (name, Entry.junction _) :: rest =>
    let there := findChildren fns tns pre rest
    if fns.contains name then ((pre ++ [name]) :: there.1, there.2) else there
  | (name, Entry.dir cs) :: rest =>
    let there := findChildren fns tns pre rest
    if fns.contains name then ((pre ++ [name]) :: there.1, there.2)
    else
      let here := findChildren fns tns (pre ++ [name]) cs
      (here.1 ++ there.1, here.2 ++ there.2)
termination_by l => sizeOf l
decreasing_by all_goals (simp <;> omega)

/-- Models `find_voice_files(root, lang_code)`: the folder names are
`lang_code` and `"vo" ++ lang_code`, the control-file names are
`lang_code ++ ".toc"` and `"vo" ++ lang_code ++ ".toc"`; returns the
discovered folder paths and control-file paths relative to `root`.
`fs::read_dir` on the root itself follows a junction, so a junction root
is scanned like a directory. -/
def find_voice_files (root : Entry) (lang_code : String) : List Path × List Path :=
  let fns := [lang_code, "vo" ++ lang_code]
  let tns := [lang_code ++ ".toc", "vo" ++ lang_code ++ ".toc"]
  match root with
  | .file _ => ([], [])
  | .dir cs => findChildren fns tns [] cs
  | .junction cs => findChildren fns tns [] cs

/-- The children a directory listing operation sees at an entry
(`fs::read_dir` follows a junction). -/
def Entry.childrenOf : Entry → List (String × Entry)
  | .file _ => []
  | .dir cs => cs
  | .junction cs => cs

/-- Well-formed tree: every directory listing has pairwise distinct
names (as real filesystems guarantee). -/
inductive Wf : Entry → Prop where
  | file (c : String) : Wf (.file c)
  | dir (cs : List (String × Entry)) (hnd : (cs.map Prod.fst).Nodup)
      (hch : ∀ p ∈ cs, Wf p.2) : Wf (.dir cs)
  | junction (cs : List (String × Entry)) (hnd : (cs.map Prod.fst).Nodup)
      (hch : ∀ p ∈ cs, Wf p.2) : Wf (.junction cs)

/-- Well-formed listing. -/
def WfL (cs : List (String × Entry)) : Prop :=
  (cs.map Prod.fst).Nodup ∧ ∀ p ∈ cs, Wf p.2

/-- Spec-side description of a discovered folder (from the spec's
AssetLocator contract): starting from the listing `cs`, the path goes
through ordinary directories whose names do not match a folder name, and
ends at an entry that the probe sees as a directory (ordinary or link
point) whose name matches one of the acceptable folder names. -/
def specFolder (fns : List String) : List (String × Entry) → Path → Bool
  | _, [] => false
  | cs, [n] =>
    (match lookupChild n cs with
     | some e => e.isDirLike
     | none => false) && fns.contains n
  | cs, n :: p =>
    !fns.contains n &&
    (match lookupChild n cs with
     | some (.dir cs') => specFolder fns cs' p
     | _ => false)

/-- Spec-side description of a discovered control file: the path goes
through ordinary directories whose names do not match a folder name, and
ends at a file whose name matches one of the acceptable control-file
names. -/
def specToc (fns tns : List String) : List (String × Entry) → Path → Bool
  | _, [] => false
  | cs, [n] =>
    (match lookupChild n cs with
     | some (.file _) => true
     | _ => false) && tns.contains n
  | cs, n :: p =>
    !fns.contains n &&
    (match lookupChild n cs with
     | some (.dir cs') => specToc fns tns cs' p
     | _ => false)

@[simp]
theorem lookupChild_nil (name : String) : lookupChild name [] = none := rfl

@[simp]
theorem lookupChild_cons (name n : String) (e : Entry)
    (rest : List (String × Entry)) :
    lookupChild name ((n, e) :: rest) =
      if n = name then some e else lookupChild name rest := rfl

theorem lookupChild_eq_none (name : String) (cs : List (String × Entry))
    (h : name ∉ cs.map Prod.fst) : lookupChild name cs = none := by
  induction cs with
  | nil => rfl
  | cons hd tl ih =>
    obtain ⟨n, e⟩ := hd
    simp only [List.map_cons, List.mem_cons] at h
    push_neg at h
    simp only [lookupChild_cons, if_neg (Ne.symm h.1)]
    exact ih h.2

@[simp]
theorem specFolder_nilPath (fns : List String) (cs : List (String × Entry)) :
    specFolder fns cs [] = false := rfl

theorem specFolder_single (fns : List String) (cs : List (String × Entry))
    (n : String) :
    specFolder fns cs [n] =
      ((match lookupChild n cs with
        | some e => e.isDirLike
        | none => false) && fns.contains n) := rfl

theorem specFolder_cons2 (fns : List String) (cs : List (String × Entry))
    (n m : String) (p : Path) :
    specFolder fns cs (n :: m :: p) =
      (!fns.contains n &&
       (match lookupChild n cs with
        | some (.dir cs') => specFolder fns cs' (m :: p)
        | _ => false)) := rfl

@[simp]
theorem specToc_nilPath (fns tns : List String) (cs : List (String × Entry)) :
    specToc fns tns cs [] = false := rfl

theorem specToc_single (fns tns : List String) (cs : List (String × Entry))
    (n : String) :
    specToc fns tns cs [n] =
      ((match lookupChild n cs with
        | some (.file _) => true
        | _ => false) && tns.contains n) := rfl

theorem specToc_cons2 (fns tns : List String) (cs : List (String × Entry))
    (n m : String) (p : Path) :
    specToc fns tns cs (n :: m :: p) =
      (!fns.contains n &&
       (match lookupChild n cs with
        | some (.dir cs') => specToc fns tns cs' (m :: p)
        | _ => false)) := rfl

theorem specFolder_nil (fns : List String) (q : Path) :
    specFolder fns [] q = false := by
  match q with
  | [] => rfl
  | [n] => simp [specFolder_single]
  | n :: m :: p => simp [specFolder_cons2]

theorem specToc_nil (fns tns : List String) (q : Path) :
    specToc fns tns [] q = false := by
  match q with
  | [] => rfl
  | [n] => simp [specToc_single]
  | n :: m :: p => simp [specToc_cons2]

/-- Contribution of a single directory entry `(name, e)` to the
spec-side folder predicate: the paths through that entry. -/
def specFolderHead (fns : List String) (name : String) (e : Entry) : Path → Bool
  | [] => false
  | [n] => n = name && e.isDirLike && fns.contains n
  | n :: p =>
    n = name && !fns.contains n &&
    (match e with
     | .dir cs' => specFolder fns cs' p
     | _ => false)

/-- Contribution of a single directory entry `(name, e)` to the
spec-side control-file predicate. -/
def specTocHead (fns tns : List String) (name : String) (e : Entry) : Path → Bool
  | [] => false
  | [n] =>
    n = name &&
    (match e with
     | .file _ => true
     | _ => false) && tns.contains n
  | n :: p =>
    n = name && !fns.contains n &&
    (match e with
     | .dir cs' => specToc fns tns cs' p
     | _ => false)

theorem specFolder_cons (fns : List String) (name : String) (e : Entry)
    (rest : List (String × Entry)) (h : name ∉ rest.map Prod.fst) (q : Path) :
    specFolder fns ((name, e) :: rest) q =
      (specFolderHead fns name e q || specFolder fns rest q) := by
  match q with
  | [] => rfl
  | [n] =>
    by_cases hn : n = name
    · subst hn
      rw [specFolder_single, specFolder_single, lookupChild_eq_none n rest h]
      simp [specFolderHead]
    · rw [specFolder_single, specFolder_single]
      simp only [lookupChild_cons, if_neg (Ne.symm hn)]
      simp [specFolderHead, hn]
  | n :: m :: p =>
    by_cases hn : n = name
    · subst hn
      rw [specFolder_cons2, specFolder_cons2, lookupChild_eq_none n rest h]
      cases e <;> simp [specFolderHead, Bool.and_assoc]
    · rw [specFolder_cons2, specFolder_cons2]
      simp only [lookupChild_cons, if_neg (Ne.symm hn)]
      simp [specFolderHead, hn]

theorem specToc_cons (fns tns : List String) (name : String) (e : Entry)
    (rest : List (String × Entry)) (h : name ∉ rest.map Prod.fst) (q : Path) :
    specToc fns tns ((name, e) :: rest) q =
      (specTocHead fns tns name e q || specToc fns tns rest q) := by
  match q with
  | [] => rfl
  | [n] =>
    by_cases hn : n = name
    · subst hn
      rw [specToc_single, specToc_single, lookupChild_eq_none n rest h]
      cases e <;> simp [specTocHead]
    · rw [specToc_single, specToc_single]
      simp only [lookupChild_cons, if_neg (Ne.symm hn)]
      simp [specTocHead, hn]
  | n :: m :: p =>
    by_cases hn : n = name
    · subst hn
      rw [specToc_cons2, specToc_cons2, lookupChild_eq_none n rest h]
      cases e <;> simp [specTocHead, Bool.and_assoc]
    · rw [specToc_cons2, specToc_cons2]
      simp only [lookupChild_cons, if_neg (Ne.symm hn)]
      simp [specTocHead, hn]

theorem WfL_cons {name : String} {e : Entry} {rest : List (String × Entry)}
    (h : WfL ((name, e) :: rest)) :
    name ∉ rest.map Prod.fst ∧ Wf e ∧ WfL rest := by
  obtain ⟨hnd, hch⟩ := h
  simp only [List.map_cons, List.nodup_cons] at hnd
  exact ⟨hnd.1, hch _ (List.mem_cons_self _ _),
    hnd.2, fun p hp => hch p (List.mem_cons_of_mem _ hp)⟩

theorem Wf.wfL {cs : List (String × Entry)} (h : Wf (.dir cs)) : WfL cs := by
  cases h with
  | dir _ hnd hch => exact ⟨hnd, hch⟩

theorem specFolder_ne_nil {fns : List String} {cs : List (String × Entry)}
    {q : Path} (h : specFolder fns cs q = true) : q ≠ [] := by
  intro hq; subst hq; simp at h

theorem specToc_ne_nil {fns tns : List String} {cs : List (String × Entry)}
    {q : Path} (h : specToc fns tns cs q = true) : q ≠ [] := by
  intro hq; subst hq; simp at h

theorem specFolderHead_file (fns : List String) (name c : String) (q : Path) :
    specFolderHead fns name (.file c) q = false := by
  match q with
  | [] => rfl
  | [n] => simp [specFolderHead, Entry.isDirLike]
  | n :: m :: p => simp [specFolderHead]

theorem specFolderHead_junction (fns : List String) (name : String)
    (cs : List (String × Entry)) (q : Path) :
    specFolderHead fns name (.junction cs) q = true ↔
      q = [name] ∧ name ∈ fns := by
  match q with
  | [] => simp [specFolderHead]
  | [n] =>
    by_cases hn : n = name
    · subst hn; simp [specFolderHead, Entry.isDirLike]
    · simp [specFolderHead, hn]
  | n :: m :: p => simp [specFolderHead]

theorem specFolderHead_dir (fns : List String) (name : String)
    (cs : List (String × Entry)) (q : Path) :
    specFolderHead fns name (.dir cs) q = true ↔
      ((q = [name] ∧ name ∈ fns) ∨
       (∃ p, p ≠ [] ∧ q = name :: p ∧ name ∉ fns ∧
         specFolder fns cs p = true)) := by
  match q with
  | [] => simp [specFolderHead]
  | [n] =>
    by_cases hn : n = name
    · subst hn
      simp [specFolderHead, Entry.isDirLike]
      exact fun x hx hx' => absurd hx' hx
    · simp [specFolderHead, hn]
  | n :: m :: p =>
    by_cases hn : n = name
    · subst hn
      simp [specFolderHead]
      constructor
      · rintro ⟨h1, h2⟩
        exact ⟨m :: p, by simp, rfl, h1, h2⟩
      · rintro ⟨p', _, rfl, h1, h2⟩
        exact ⟨h1, h2⟩
    · simp [specFolderHead, hn]

theorem specTocHead_file (fns tns : List String) (name c : String) (q : Path) :
    specTocHead fns tns name (.file c) q = true ↔
      q = [name] ∧ name ∈ tns := by
  match q with
  | [] => simp [specTocHead]
  | [n] =>
    by_cases hn : n = name
    · subst hn; simp [specTocHead]
    · simp [specTocHead, hn]
  | n :: m :: p => simp [specTocHead]

theorem specTocHead_junction (fns tns : List String) (name : String)
    (cs : List (String × Entry)) (q : Path) :
    specTocHead fns tns name (.junction cs) q = false := by
  match q with
  | [] => rfl
  | [n] => simp [specTocHead]
  | n :: m :: p => simp [specTocHead]

theorem specTocHead_dir (fns tns : List String) (name : String)
    (cs : List (String × Entry)) (q : Path) :
    specTocHead fns tns name (.dir cs) q = true ↔
      ∃ p, p ≠ [] ∧ q = name :: p ∧ name ∉ fns ∧
        specToc fns tns cs p = true := by
  match q with
  | [] => simp [specTocHead]
  | [n] =>
    simp [specTocHead]
    exact fun x hx _ hx' => absurd hx' hx
  | n :: m :: p =>
    by_cases hn : n = name
    · subst hn
      simp [specTocHead]
      constructor
      · rintro ⟨h1, h2⟩
        exact ⟨m :: p, by simp, rfl, h1, h2⟩
      · rintro ⟨p', _, rfl, h1, h2⟩
        exact ⟨h1, h2⟩
    · simp [specTocHead, hn]

/-- Characterization of the folder component of the scan: a path is
reported as a folder exactly when, relative to the current directory, it
passes only through ordinary non-matching directories and ends at a
directory-like entry with a matching name. -/
theorem findChildren_mem_folders (fns tns : List String) (pre : Path)
    (cs : List (String × Entry)) :
    WfL cs → ∀ r : Path,
      (r ∈ (findChildren fns tns pre cs).1 ↔
        ∃ q, r = pre ++ q ∧ specFolder fns cs q = true) := by
  induction pre, cs using findChildren.induct fns tns with
  | case1 pre =>
    intro _ r
    simp [findChildren, specFolder_nil]
  | case2 pre name c rest hc ih =>
    intro hwf r
    obtain ⟨hnm, _, hwr⟩ := WfL_cons hwf
    simp only [findChildren, hc, if_true]
    rw [ih hwr r]
    simp only [specFolder_cons fns name _ rest hnm, specFolderHead_file,
      Bool.false_or]
  | case3 pre name c rest hc ih =>
    intro hwf r
    obtain ⟨hnm, _, hwr⟩ := WfL_cons hwf
    simp only [findChildren, eq_false_of_ne_true hc, Bool.false_eq_true,
      if_false]
    rw [ih hwr r]
    simp only [specFolder_cons fns name _ rest hnm, specFolderHead_file,
      Bool.false_or]
  | case4 pre name cs rest hc ih =>
    intro hwf r
    obtain ⟨hnm, _, hwr⟩ := WfL_cons hwf
    have hm : name ∈ fns := by simpa using hc
    simp only [findChildren, hc, if_true, List.mem_cons]
    rw [ih hwr r]
    constructor
    · rintro (rfl | ⟨q, rfl, hq⟩)
      · refine ⟨[name], rfl, ?_⟩
        rw [specFolder_cons fns name _ rest hnm]
        have : specFolderHead fns name (.junction cs) [name] = true :=
          (specFolderHead_junction fns name cs [name]).mpr ⟨rfl, hm⟩
        simp [this]
      · refine ⟨q, rfl, ?_⟩
        rw [specFolder_cons fns name _ rest hnm]
        simp [hq]
    · rintro ⟨q, rfl, hq⟩
      rw [specFolder_cons fns name _ rest hnm] at hq
      rcases (Bool.or_eq_true _ _).mp hq with h | h
      · obtain ⟨rfl, _⟩ := (specFolderHead_junction fns name _ q).mp h
        exact Or.inl rfl
      · exact Or.inr ⟨q, rfl, h⟩
  | case5 pre name cs rest hc ih =>
    intro hwf r
    obtain ⟨hnm, _, hwr⟩ := WfL_cons hwf
    have hm : name ∉ fns := by simpa using hc
    simp only [findChildren, eq_false_of_ne_true hc, Bool.false_eq_true,
      if_false]
    rw [ih hwr r]
    constructor
    · rintro ⟨q, rfl, hq⟩
      refine ⟨q, rfl, ?_⟩
      rw [specFolder_cons fns name _ rest hnm]
      simp [hq]
    · rintro ⟨q, rfl, hq⟩
      rw [specFolder_cons fns name _ rest hnm] at hq
      rcases (Bool.or_eq_true _ _).mp hq with h | h
      · obtain ⟨rfl, hcn⟩ := (specFolderHead_junction fns name _ q).mp h
        exact absurd hcn hm
      · exact ⟨q, rfl, h⟩
  | case6 pre name cs rest hc ih =>
    intro hwf r
    obtain ⟨hnm, _, hwr⟩ := WfL_cons hwf
    have hm : name ∈ fns := by simpa using hc
    simp only [findChildren, hc, if_true, List.mem_cons]
    rw [ih hwr r]
    constructor
    · rintro (rfl | ⟨q, rfl, hq⟩)
      · refine ⟨[name], rfl, ?_⟩
        rw [specFolder_cons fns name _ rest hnm]
        have : specFolderHead fns name (.dir cs) [name] = true :=
          (specFolderHead_dir fns name cs [name]).mpr (Or.inl ⟨rfl, hm⟩)
        simp [this]
      · refine ⟨q, rfl, ?_⟩
        rw [specFolder_cons fns name _ rest hnm]
        simp [hq]
    · rintro ⟨q, rfl, hq⟩
      rw [specFolder_cons fns name _ rest hnm] at hq
      rcases (Bool.or_eq_true _ _).mp hq with h | h
      · rcases (specFolderHead_dir fns name _ q).mp h with ⟨rfl, _⟩ | ⟨p, _, _, hcf, _⟩
        · exact Or.inl rfl
        · exact absurd hm hcf
      · exact Or.inr ⟨q, rfl, h⟩
  | case7 pre name cs rest hc ih ihc =>
    intro hwf r
    obtain ⟨hnm, hwe, hwr⟩ := WfL_cons hwf
    have hm : name ∉ fns := by simpa using hc
    simp only [findChildren, eq_false_of_ne_true hc, Bool.false_eq_true,
      if_false, List.mem_append]
    rw [ih hwr r, ihc hwe.wfL r]
    constructor
    · rintro (⟨q, rfl, hq⟩ | ⟨q, rfl, hq⟩)
      · refine ⟨name :: q, by simp, ?_⟩
        rw [specFolder_cons fns name _ rest hnm]
        have : specFolderHead fns name (.dir cs) (name :: q) = true :=
          (specFolderHead_dir fns name cs (name :: q)).mpr
            (Or.inr ⟨q, specFolder_ne_nil hq, rfl, hm, hq⟩)
        simp [this]
      · refine ⟨q, rfl, ?_⟩
        rw [specFolder_cons fns name _ rest hnm]
        simp [hq]
    · rintro ⟨q, rfl, hq⟩
      rw [specFolder_cons fns name _ rest hnm] at hq
      rcases (Bool.or_eq_true _ _).mp hq with h | h
      · rcases (specFolderHead_dir fns name _ q).mp h with ⟨rfl, hcn⟩ | ⟨p, _, rfl, _, hs⟩
        · exact absurd hcn hm
        · exact Or.inl ⟨p, by simp, hs⟩
      · exact Or.inr ⟨q, rfl, h⟩

/-- Characterization of the control-file component of the scan. -/
theorem findChildren_mem_tocs (fns tns : List String) (pre : Path)
    (cs : List (String × Entry)) :
    WfL cs → ∀ r : Path,
      (r ∈ (findChildren fns tns pre cs).2 ↔
        ∃ q, r = pre ++ q ∧ specToc fns tns cs q = true) := by
  induction pre, cs using findChildren.induct fns tns with
  | case1 pre =>
    intro _ r
    simp [findChildren, specToc_nil]
  | case2 pre name c rest hc ih =>
    intro hwf r
    obtain ⟨hnm, _, hwr⟩ := WfL_cons hwf
    have hm : name ∈ tns := by simpa using hc
    simp only [findChildren, hc, if_true, List.mem_cons]
    rw [ih hwr r]
    constructor
    · rintro (rfl | ⟨q, rfl, hq⟩)
      · refine ⟨[name], rfl, ?_⟩
        rw [specToc_cons fns tns name _ rest hnm]
        have : specTocHead fns tns name (.file c) [name] = true :=
          (specTocHead_file fns tns name c [name]).mpr ⟨rfl, hm⟩
        simp [this]
      · refine ⟨q, rfl, ?_⟩
        rw [specToc_cons fns tns name _ rest hnm]
        simp [hq]
    · rintro ⟨q, rfl, hq⟩
      rw [specToc_cons fns tns name _ rest hnm] at hq
      rcases (Bool.or_eq_true _ _).mp hq with h | h
      · obtain ⟨rfl, _⟩ := (specTocHead_file fns tns name c q).mp h
        exact Or.inl rfl
      · exact Or.inr ⟨q, rfl, h⟩
  | case3 pre name c rest hc ih =>
    intro hwf r
    obtain ⟨hnm, _, hwr⟩ := WfL_cons hwf
    have hm : name ∉ tns := by simpa using hc
    simp only [findChildren, eq_false_of_ne_true hc, Bool.false_eq_true,
      if_false]
    rw [ih hwr r]
    constructor
    · rintro ⟨q, rfl, hq⟩
      refine ⟨q, rfl, ?_⟩
      rw [specToc_cons fns tns name _ rest hnm]
      simp [hq]
    · rintro ⟨q, rfl, hq⟩
      rw [specToc_cons fns tns name _ rest hnm] at hq
      rcases (Bool.or_eq_true _ _).mp hq with h | h
      · obtain ⟨rfl, hcn⟩ := (specTocHead_file fns tns name c q).mp h
        exact absurd hcn hm
      · exact ⟨q, rfl, h⟩
  | case4 pre name cs rest hc ih =>
    intro hwf r
    obtain ⟨hnm, _, hwr⟩ := WfL_cons hwf
    simp only [findChildren, hc, if_true]
    rw [ih hwr r]
    constructor
    · rintro ⟨q, rfl, hq⟩
      refine ⟨q, rfl, ?_⟩
      rw [specToc_cons fns tns name _ rest hnm]
      simp [hq]
    · rintro ⟨q, rfl, hq⟩
      rw [specToc_cons fns tns name _ rest hnm] at hq
      rcases (Bool.or_eq_true _ _).mp hq with h | h
      · rw [specTocHead_junction] at h; cases h
      · exact ⟨q, rfl, h⟩
  | case5 pre name cs rest hc ih =>
    intro hwf r
    obtain ⟨hnm, _, hwr⟩ := WfL_cons hwf
    simp only [findChildren, eq_false_of_ne_true hc, Bool.false_eq_true,
      if_false]
    rw [ih hwr r]
    constructor
    · rintro ⟨q, rfl, hq⟩
      refine ⟨q, rfl, ?_⟩
      rw [specToc_cons fns tns name _ rest hnm]
      simp [hq]
    · rintro ⟨q, rfl, hq⟩
      rw [specToc_cons fns tns name _ rest hnm] at hq
      rcases (Bool.or_eq_true _ _).mp hq with h | h
      · rw [specTocHead_junction] at h; cases h
      · exact ⟨q, rfl, h⟩
  | case6 pre name cs rest hc ih =>
    intro hwf r
    obtain ⟨hnm, _, hwr⟩ := WfL_cons hwf
    have hm : name ∈ fns := by simpa using hc
    simp only [findChildren, hc, if_true]
    rw [ih hwr r]
    constructor
    · rintro ⟨q, rfl, hq⟩
      refine ⟨q, rfl, ?_⟩
      rw [specToc_cons fns tns name _ rest hnm]
      simp [hq]
    · rintro ⟨q, rfl, hq⟩
      rw [specToc_cons fns tns name _ rest hnm] at hq
      rcases (Bool.or_eq_true _ _).mp hq with h | h
      · rw [specTocHead_dir] at h
        obtain ⟨p, _, rfl, hcf, _⟩ := h
        exact absurd hm hcf
      · exact ⟨q, rfl, h⟩
  | case7 pre name cs rest hc ih ihc =>
    intro hwf r
    obtain ⟨hnm, hwe, hwr⟩ := WfL_cons hwf
    have hm : name ∉ fns := by simpa using hc
    simp only [findChildren, eq_false_of_ne_true hc, Bool.false_eq_true,
      if_false, List.mem_append]
    rw [ih hwr r, ihc hwe.wfL r]
    constructor
    · rintro (⟨q, rfl, hq⟩ | ⟨q, rfl, hq⟩)
      · refine ⟨name :: q, by simp, ?_⟩
        rw [specToc_cons fns tns name _ rest hnm]
        have : specTocHead fns tns name (.dir cs) (name :: q) = true :=
          (specTocHead_dir fns tns name cs (name :: q)).mpr
            ⟨q, specToc_ne_nil hq, rfl, hm, hq⟩
        simp [this]
      · refine ⟨q, rfl, ?_⟩
        rw [specToc_cons fns tns name _ rest hnm]
        simp [hq]
    · rintro ⟨q, rfl, hq⟩
      rw [specToc_cons fns tns name _ rest hnm] at hq
      rcases (Bool.or_eq_true _ _).mp hq with h | h
      · rw [specTocHead_dir] at h
        obtain ⟨p, _, rfl, _, hs⟩ := h
        exact Or.inl ⟨p, by simp, hs⟩
      · exact Or.inr ⟨q, rfl, h⟩

/-- A path reported by the scan, in spec form: either a folder match or
a control-file match. -/
def specAny (fns tns : List String) (cs : List (String × Entry)) (q : Path) : Prop :=
  specFolder fns cs q = true ∨ specToc fns tns cs q = true

theorem specFolder_single_inv {fns : List String} {cs : List (String × Entry)}
    {n : String} (h : specFolder fns cs [n] = true) :
    fns.contains n = true ∧ ∃ e, lookupChild n cs = some e ∧ e.isDirLike = true := by
  rw [specFolder_single, Bool.and_eq_true] at h
  obtain ⟨h1, h2⟩ := h
  refine ⟨h2, ?_⟩
  match hl : lookupChild n cs with
  | some e => exact ⟨e, rfl, by rw [hl] at h1; exact h1⟩
  | none => rw [hl] at h1; cases h1

theorem specToc_single_inv {fns tns : List String} {cs : List (String × Entry)}
    {n : String} (h : specToc fns tns cs [n] = true) :
    tns.contains n = true ∧ ∃ c, lookupChild n cs = some (.file c) := by
  rw [specToc_single, Bool.and_eq_true] at h
  obtain ⟨h1, h2⟩ := h
  refine ⟨h2, ?_⟩
  match hl : lookupChild n cs with
  | some (.file c) => exact ⟨c, rfl⟩
  | some (.dir cs') => rw [hl] at h1; cases h1
  | some (.junction cs') => rw [hl] at h1; cases h1
  | none => rw [hl] at h1; cases h1

theorem specFolder_cons2_inv {fns : List String} {cs : List (String × Entry)}
    {n m : String} {p : Path} (h : specFolder fns cs (n :: m :: p) = true) :
    fns.contains n = false ∧ ∃ cs', lookupChild n cs = some (.dir cs') ∧
      specFolder fns cs' (m :: p) = true := by
  rw [specFolder_cons2, Bool.and_eq_true, Bool.not_eq_true'] at h
  obtain ⟨h1, h2⟩ := h
  refine ⟨h1, ?_⟩
  match hl : lookupChild n cs with
  | some (.dir cs') => exact ⟨cs', rfl, by rw [hl] at h2; exact h2⟩
  | some (.file c) => rw [hl] at h2; cases h2
  | some (.junction cs') => rw [hl] at h2; cases h2
  | none => rw [hl] at h2; cases h2

theorem specToc_cons2_inv {fns tns : List String} {cs : List (String × Entry)}
    {n m : String} {p : Path} (h : specToc fns tns cs (n :: m :: p) = true) :
    fns.contains n = false ∧ ∃ cs', lookupChild n cs = some (.dir cs') ∧
      specToc fns tns cs' (m :: p) = true := by
  rw [specToc_cons2, Bool.and_eq_true, Bool.not_eq_true'] at h
  obtain ⟨h1, h2⟩ := h
  refine ⟨h1, ?_⟩
  match hl : lookupChild n cs with
  | some (.dir cs') => exact ⟨cs', rfl, by rw [hl] at h2; exact h2⟩
  | some (.file c) => rw [hl] at h2; cases h2
  | some (.junction cs') => rw [hl] at h2; cases h2
  | none => rw [hl] at h2; cases h2

/-- No reported path properly extends another reported path: the scan
never records anything strictly below a recorded match. -/
theorem specAny_append {fns tns : List String} :
    ∀ (q : Path) (cs : List (String × Entry)) (s : Path),
      specAny fns tns cs q → specAny fns tns cs (q ++ s) → s = [] := by
  intro q
  induction q with
  | nil =>
    intro cs s h _
    rcases h with h | h <;> simp at h
  | cons n q' ih =>
    intro cs s h hext
    match q', s with
    | [], [] => rfl
    | [], m :: p =>
      exfalso
      rcases h with h | h
      · obtain ⟨hc, e, hl, _⟩ := specFolder_single_inv h
        rcases hext with he | he
        · obtain ⟨hcf, _⟩ := specFolder_cons2_inv he
          rw [hc] at hcf; cases hcf
        · obtain ⟨hcf, _⟩ := specToc_cons2_inv he
          rw [hc] at hcf; cases hcf
      · obtain ⟨_, c, hl⟩ := specToc_single_inv h
        rcases hext with he | he
        · obtain ⟨_, cs', hl', _⟩ := specFolder_cons2_inv he
          rw [hl] at hl'; cases hl'
        · obtain ⟨_, cs', hl', _⟩ := specToc_cons2_inv he
          rw [hl] at hl'; cases hl'
    | m' :: p', s =>
      obtain ⟨cs', hl, h1⟩ : ∃ cs', lookupChild n cs = some (.dir cs') ∧
          specAny fns tns cs' (m' :: p') := by
        rcases h with h | h
        · obtain ⟨_, cs', hl, hs⟩ := specFolder_cons2_inv h
          exact ⟨cs', hl, Or.inl hs⟩
        · obtain ⟨_, cs', hl, hs⟩ := specToc_cons2_inv h
          exact ⟨cs', hl, Or.inr hs⟩
      have h2 : specAny fns tns cs' ((m' :: p') ++ s) := by
        rcases hext with he | he
        · obtain ⟨_, cs'', hl', hs'⟩ := specFolder_cons2_inv he
          rw [hl] at hl'; cases hl'; exact Or.inl hs'
        · obtain ⟨_, cs'', hl', hs'⟩ := specToc_cons2_inv he
          rw [hl] at hl'; cases hl'; exact Or.inr hs'
      exact ih cs' s h1 h2

theorem lookupChild_mem {n : String} {cs : List (String × Entry)} {c : Entry}
    (h : lookupChild n cs = some c) : (n, c) ∈ cs := by
  induction cs with
  | nil => cases h
  | cons hd tl ih =>
    obtain ⟨k, e⟩ := hd
    by_cases hk : k = n
    · subst hk
      rw [lookupChild_cons, if_pos rfl] at h
      cases h
      exact List.mem_cons_self _ _
    · rw [lookupChild_cons, if_neg hk] at h
      exact List.mem_cons_of_mem _ (ih h)

theorem lookupChild_removeChild_ne {m n : String} (h : m ≠ n)
    (cs : List (String × Entry)) :
    lookupChild m (removeChild n cs) = lookupChild m cs := by
  induction cs with
  | nil => rfl
  | cons hd tl ih =>
    obtain ⟨k, e⟩ := hd
    by_cases hk : k = n
    · subst hk
      rw [removeChild, if_pos rfl, lookupChild_cons, if_neg (fun hh => h hh.symm)]
    · rw [removeChild, if_neg hk]
      by_cases hm : k = m
      · subst hm
        rw [lookupChild_cons, if_pos rfl, lookupChild_cons, if_pos rfl]
      · rw [lookupChild_cons, if_neg hm, lookupChild_cons, if_neg hm, ih]

theorem lookupChild_removeChild_self {n : String} {cs : List (String × Entry)}
    (hnd : (cs.map Prod.fst).Nodup) :
    lookupChild n (removeChild n cs) = none := by
  induction cs with
  | nil => rfl
  | cons hd tl ih =>
    obtain ⟨k, e⟩ := hd
    simp only [List.map_cons, List.nodup_cons] at hnd
    by_cases hk : k = n
    · subst hk
      rw [removeChild, if_pos rfl]
      exact lookupChild_eq_none _ _ hnd.1
    · rw [removeChild, if_neg hk, lookupChild_cons, if_neg hk]
      exact ih hnd.2

theorem updateChildren_nil (n : String) (g : Entry → Entry) :
    updateChildren n g [] = [] := rfl

theorem updateChildren_cons (n : String) (g : Entry → Entry) (k : String)
    (e : Entry) (tl : List (String × Entry)) :
    updateChildren n g ((k, e) :: tl) =
      (if k = n then (k, g e) else (k, e)) :: updateChildren n g tl := by
  simp [updateChildren]

theorem lookupChild_update_ne {m n : String} (h : m ≠ n) (g : Entry → Entry)
    (cs : List (String × Entry)) :
    lookupChild m (updateChildren n g cs) = lookupChild m cs := by
  induction cs with
  | nil => rfl
  | cons hd tl ih =>
    obtain ⟨k, e⟩ := hd
    rw [updateChildren_cons]
    by_cases hk : k = n
    · subst hk
      rw [if_pos rfl, lookupChild_cons, lookupChild_cons,
        if_neg (Ne.symm h), if_neg (Ne.symm h), ih]
    · rw [if_neg hk, lookupChild_cons, lookupChild_cons]
      by_cases hm : k = m
      · rw [if_pos hm, if_pos hm]
      · rw [if_neg hm, if_neg hm, ih]

theorem lookupChild_update_eq (n : String) (g : Entry → Entry)
    (cs : List (String × Entry)) :
    lookupChild n (updateChildren n g cs) = (lookupChild n cs).map g := by
  induction cs with
  | nil => rfl
  | cons hd tl ih =>
    obtain ⟨k, e⟩ := hd
    rw [updateChildren_cons]
    by_cases hk : k = n
    · subst hk
      rw [if_pos rfl, lookupChild_cons, lookupChild_cons, if_pos rfl,
        if_pos rfl, Option.map_some']
    · rw [if_neg hk, lookupChild_cons, lookupChild_cons, if_neg hk,
        if_neg hk, ih]

theorem updateChildren_map_fst (n : String) (g : Entry → Entry)
    (cs : List (String × Entry)) :
    (updateChildren n g cs).map Prod.fst = cs.map Prod.fst := by
  induction cs with
  | nil => rfl
  | cons hd tl ih =>
    obtain ⟨k, e⟩ := hd
    rw [updateChildren_cons]
    by_cases hk : k = n
    · rw [if_pos hk, List.map_cons, List.map_cons, ih]
    · rw [if_neg hk, List.map_cons, List.map_cons, ih]

theorem updateChildren_mem {n : String} {g : Entry → Entry}
    {cs : List (String × Entry)} {pr : String × Entry}
    (h : pr ∈ updateChildren n g cs) :
    (pr ∈ cs) ∨ (∃ e, (pr.1, e) ∈ cs ∧ pr.2 = g e) := by
  induction cs with
  | nil => cases h
  | cons hd tl ih =>
    obtain ⟨k, e⟩ := hd
    rw [updateChildren_cons] at h
    rcases List.mem_cons.mp h with h | h
    · by_cases hk : k = n
      · rw [if_pos hk] at h
        subst h
        exact Or.inr ⟨e, List.mem_cons_self _ _, rfl⟩
      · rw [if_neg hk] at h
        subst h
        exact Or.inl (List.mem_cons_self _ _)
    · rcases ih h with h | ⟨e', he', hg⟩
      · exact Or.inl (List.mem_cons_of_mem _ h)
      · exact Or.inr ⟨e', List.mem_cons_of_mem _ he', hg⟩

theorem removeChild_sublist (n : String) (cs : List (String × Entry)) :
    (removeChild n cs).Sublist cs := by
  induction cs with
  | nil => simp [removeChild]
  | cons hd tl ih =>
    obtain ⟨k, e⟩ := hd
    by_cases hk : k = n
    · rw [removeChild, if_pos hk]
      exact List.sublist_cons_self _ _
    · rw [removeChild, if_neg hk]
      exact ih.cons₂ _

theorem removeAt_nilPath (e : Entry) : removeAt [] e = e := by simp [removeAt]

theorem removeAt_file (p : Path) (c : String) :
    removeAt p (.file c) = .file c := by
  match p with
  | [] => simp [removeAt]
  | [n] => simp [removeAt]
  | n :: m :: q => simp [removeAt]

theorem removeAt_dir_single (n : String) (cs : List (String × Entry)) :
    removeAt [n] (.dir cs) = .dir (removeChild n cs) := by
  simp [removeAt]

theorem removeAt_junction_single (n : String) (cs : List (String × Entry)) :
    removeAt [n] (.junction cs) = .junction (removeChild n cs) := by
  simp [removeAt]

theorem removeAt_dir_cons (n m : String) (q : Path) (cs : List (String × Entry)) :
    removeAt (n :: m :: q) (.dir cs) =
      .dir (updateChildren n (fun c => removeAt (m :: q) c) cs) := by
  simp [removeAt]

theorem removeAt_junction_cons (n m : String) (q : Path)
    (cs : List (String × Entry)) :
    removeAt (n :: m :: q) (.junction cs) =
      .junction (updateChildren n (fun c => removeAt (m :: q) c) cs) := by
  simp [removeAt]

theorem getAt_dir_cons (n : String) (p : Path) (cs : List (String × Entry)) :
    getAt (n :: p) (.dir cs) =
      (match lookupChild n cs with
       | some c => getAt p c
       | none => none) := rfl

theorem getAt_junction_cons (n : String) (p : Path) (cs : List (String × Entry)) :
    getAt (n :: p) (.junction cs) =
      (match lookupChild n cs with
       | some c => getAt p c
       | none => none) := rfl

/-- Removal preserves well-formedness. -/
theorem Wf.removeAt {s : Entry} (hwf : Wf s) : ∀ p : Path, Wf (removeAt p s) := by
  induction hwf with
  | file c =>
    intro p
    rw [removeAt_file]
    exact .file c
  | dir cs hnd hch ih =>
    intro p
    match p with
    | [] => rw [removeAt_nilPath]; exact .dir cs hnd hch
    | [n] =>
      rw [removeAt_dir_single]
      refine .dir _ (List.Nodup.sublist ((removeChild_sublist n cs).map _) hnd) ?_
      exact fun q hq => hch q ((removeChild_sublist n cs).mem hq)
    | n :: m :: q =>
      rw [removeAt_dir_cons]
      refine .dir _ (by rw [updateChildren_map_fst]; exact hnd) ?_
      intro pr hpr
      rcases updateChildren_mem hpr with h | ⟨e, he, hg⟩
      · exact hch _ h
      · rw [hg]
        exact ih (pr.1, e) he (m :: q)
  | junction cs hnd hch ih =>
    intro p
    match p with
    | [] => rw [removeAt_nilPath]; exact .junction cs hnd hch
    | [n] =>
      rw [removeAt_junction_single]
      refine .junction _ (List.Nodup.sublist ((removeChild_sublist n cs).map _) hnd) ?_
      exact fun q hq => hch q ((removeChild_sublist n cs).mem hq)
    | n :: m :: q =>
      rw [removeAt_junction_cons]
      refine .junction _ (by rw [updateChildren_map_fst]; exact hnd) ?_
      intro pr hpr
      rcases updateChildren_mem hpr with h | ⟨e, he, hg⟩
      · exact hch _ h
      · rw [hg]
        exact ih (pr.1, e) he (m :: q)

/-- Removing at `p` does not change what is found at `q` when neither
path extends the other. -/
theorem getAt_removeAt (p : Path) :
    ∀ (q : Path) (s : Entry), (∀ t, q ≠ p ++ t) → (∀ t, p ≠ q ++ t) →
      getAt q (removeAt p s) = getAt q s := by
  induction p with
  | nil =>
    intro q s h1 _
    exact absurd (by simp) (h1 q)
  | cons n p' ih =>
    intro q s h1 h2
    match q with
    | [] => exact absurd (by simp) (h2 (n :: p'))
    | m :: q' =>
      match p' with
      | [] =>
        have hmn : m ≠ n := by
          rintro rfl
          rcases q' with _ | ⟨a, b⟩
          · exact absurd rfl (h1 [])
          · exact absurd (by simp) (h1 (a :: b))
        match s with
        | .file c => rw [removeAt_file]
        | .dir cs =>
          rw [removeAt_dir_single, getAt_dir_cons, getAt_dir_cons,
            lookupChild_removeChild_ne hmn]
        | .junction cs =>
          rw [removeAt_junction_single, getAt_junction_cons, getAt_junction_cons,
            lookupChild_removeChild_ne hmn]
      | w :: p'' =>
        by_cases hmn : m = n
        · subst hmn
          have h1' : ∀ t, q' ≠ (w :: p'') ++ t := by
            intro t ht
            exact h1 t (by rw [List.cons_append, ht])
          have h2' : ∀ t, (w :: p'') ≠ q' ++ t := by
            intro t ht
            exact h2 t (by rw [List.cons_append, ht])
          match s with
          | .file c => rw [removeAt_file]
          | .dir cs =>
            rw [removeAt_dir_cons, getAt_dir_cons, getAt_dir_cons,
              lookupChild_update_eq]
            match lookupChild m cs with
            | some c => exact ih q' c h1' h2'
            | none => rfl
          | .junction cs =>
            rw [removeAt_junction_cons, getAt_junction_cons, getAt_junction_cons,
              lookupChild_update_eq]
            match lookupChild m cs with
            | some c => exact ih q' c h1' h2'
            | none => rfl
        · match s with
          | .file c => rw [removeAt_file]
          | .dir cs =>
            rw [removeAt_dir_cons, getAt_dir_cons, getAt_dir_cons,
              lookupChild_update_ne hmn]
          | .junction cs =>
            rw [removeAt_junction_cons, getAt_junction_cons, getAt_junction_cons,
              lookupChild_update_ne hmn]

/-- Removing at an existing path really removes the entry there. -/
theorem getAt_removeAt_self :
    ∀ (q : Path) (s : Entry), Wf s → q ≠ [] → (getAt q s).isSome →
      getAt q (removeAt q s) = none := by
  intro q
  induction q with
  | nil => intro s _ hne _; exact absurd rfl hne
  | cons n q' ih =>
    intro s hwf _ hsome
    match s with
    | .file c => simp [getAt] at hsome
    | .dir cs =>
      obtain ⟨c, hl⟩ : ∃ c, lookupChild n cs = some c := by
        rw [getAt_dir_cons] at hsome
        match hl : lookupChild n cs with
        | some c => exact ⟨c, rfl⟩
        | none => rw [hl] at hsome; simp at hsome
      have hnd : (cs.map Prod.fst).Nodup := by
        cases hwf with | dir _ hnd _ => exact hnd
      match q' with
      | [] =>
        rw [removeAt_dir_single, getAt_dir_cons,
          lookupChild_removeChild_self hnd]
      | m :: q'' =>
        have hwc : Wf c := by
          cases hwf with | dir _ _ hch => exact hch _ (lookupChild_mem hl)
        have hsome' : (getAt (m :: q'') c).isSome := by
          rw [getAt_dir_cons, hl] at hsome
          exact hsome
        rw [removeAt_dir_cons, getAt_dir_cons, lookupChild_update_eq, hl,
          Option.map_some']
        exact ih _ hwc (by simp) hsome'
    | .junction cs =>
      obtain ⟨c, hl⟩ : ∃ c, lookupChild n cs = some c := by
        rw [getAt_junction_cons] at hsome
        match hl : lookupChild n cs with
        | some c => exact ⟨c, rfl⟩
        | none => rw [hl] at hsome; simp at hsome
      have hnd : (cs.map Prod.fst).Nodup := by
        cases hwf with | junction _ hnd _ => exact hnd
      match q' with
      | [] =>
        rw [removeAt_junction_single, getAt_junction_cons,
          lookupChild_removeChild_self hnd]
      | m :: q'' =>
        have hwc : Wf c := by
          cases hwf with | junction _ _ hch => exact hch _ (lookupChild_mem hl)
        have hsome' : (getAt (m :: q'') c).isSome := by
          rw [getAt_junction_cons, hl] at hsome
          exact hsome
        rw [removeAt_junction_cons, getAt_junction_cons, lookupChild_update_eq,
          hl, Option.map_some']
        exact ih _ hwc (by simp) hsome'

theorem getAt_childrenOf (root : Entry) (n : String) (p : Path) :
    getAt (n :: p) root = getAt (n :: p) (.dir root.childrenOf) := by
  cases root with
  | file c =>
    rw [show (Entry.file c).childrenOf = [] from rfl, getAt_dir_cons]
    rfl
  | dir cs => rfl
  | junction cs => rw [getAt_junction_cons]; rfl

theorem find_voice_files_eq (root : Entry) (code : String) :
    find_voice_files root code =
      findChildren [code, "vo" ++ code]
        [code ++ ".toc", "vo" ++ code ++ ".toc"] [] root.childrenOf := by
  cases root with
  | file c =>
    rw [show (Entry.file c).childrenOf = [] from rfl]
    simp [find_voice_files, findChildren]
  | dir cs => rfl
  | junction cs => rfl

theorem Wf.childrenWfL {root : Entry} (h : Wf root) : WfL root.childrenOf := by
  cases h with
  | file c => exact ⟨List.nodup_nil, by simp [Entry.childrenOf]⟩
  | dir cs hnd hch => exact ⟨hnd, hch⟩
  | junction cs hnd hch => exact ⟨hnd, hch⟩

/-- A spec-side folder path leads to a directory-like entry. -/
theorem specFolder_getAt {fns : List String} :
    ∀ (q : Path) (cs : List (String × Entry)), specFolder fns cs q = true →
      ∃ e, getAt q (.dir cs) = some e ∧ e.isDirLike = true := by
  intro q
  induction q with
  | nil => intro cs h; simp at h
  | cons n q' ih =>
    intro cs h
    match q' with
    | [] =>
      obtain ⟨_, e, hl, hd⟩ := specFolder_single_inv h
      refine ⟨e, ?_, hd⟩
      rw [getAt_dir_cons, hl]
      rfl
    | m :: p =>
      obtain ⟨_, cs', hl, hs⟩ := specFolder_cons2_inv h
      obtain ⟨e, hg, hd⟩ := ih cs' hs
      refine ⟨e, ?_, hd⟩
      rw [getAt_dir_cons, hl]
      rw [getAt_dir_cons] at hg
      exact hg

/-- A spec-side control-file path leads to a file entry. -/
theorem specToc_getAt {fns tns : List String} :
    ∀ (q : Path) (cs : List (String × Entry)), specToc fns tns cs q = true →
      ∃ c, getAt q (.dir cs) = some (.file c) := by
  intro q
  induction q with
  | nil => intro cs h; simp at h
  | cons n q' ih =>
    intro cs h
    match q' with
    | [] =>
      obtain ⟨_, c, hl⟩ := specToc_single_inv h
      refine ⟨c, ?_⟩
      rw [getAt_dir_cons, hl]
      rfl
    | m :: p =>
      obtain ⟨_, cs', hl, hs⟩ := specToc_cons2_inv h
      obtain ⟨c, hg⟩ := ih cs' hs
      refine ⟨c, ?_⟩
      rw [getAt_dir_cons, hl]
      rw [getAt_dir_cons] at hg
      exact hg

/-- Every proper non-empty initial part of a reported path leads to an
ordinary directory (never a junction): the scan never descends through a
link point. -/
theorem specAny_take {fns tns : List String} :
    ∀ (q : Path) (cs : List (String × Entry)), specAny fns tns cs q →
      ∀ k, 0 < k → k < q.length →
        ∃ cs', getAt (q.take k) (.dir cs) = some (.dir cs') := by
  intro q
  induction q with
  | nil => intro cs _ k _ hk; simp at hk
  | cons n q' ih =>
    intro cs h k hk0 hk
    match q' with
    | [] => simp at hk; omega
    | m :: p =>
      obtain ⟨cs', hl, h'⟩ : ∃ cs', lookupChild n cs = some (.dir cs') ∧
          specAny fns tns cs' (m :: p) := by
        rcases h with h | h
        · obtain ⟨_, cs', hl, hs⟩ := specFolder_cons2_inv h
          exact ⟨cs', hl, Or.inl hs⟩
        · obtain ⟨_, cs', hl, hs⟩ := specToc_cons2_inv h
          exact ⟨cs', hl, Or.inr hs⟩
      obtain ⟨k', rfl⟩ : ∃ k', k = k' + 1 := ⟨k - 1, by omega⟩
      simp only [List.take_succ_cons, getAt_dir_cons, hl]
      by_cases hk' : k' = 0
      · subst hk'
        exact ⟨cs', rfl⟩
      · obtain ⟨k'', rfl⟩ : ∃ k'', k' = k'' + 1 := ⟨k' - 1, by omega⟩
        have hk'' : k'' + 1 < (m :: p).length := by
          simp at hk ⊢; omega
        obtain ⟨cs'', hg⟩ := ih cs' h' (k'' + 1) (by omega) hk''
        exact ⟨cs'', hg⟩

/-- A reported folder path ends in one of the acceptable folder names. -/
theorem specFolder_last {fns : List String} :
    ∀ (q : Path) (cs : List (String × Entry)), specFolder fns cs q = true →
      ∃ n, q.getLast? = some n ∧ fns.contains n = true := by
  intro q
  induction q with
  | nil => intro cs h; simp at h
  | cons n q' ih =>
    intro cs h
    match q' with
    | [] =>
      obtain ⟨hc, _⟩ := specFolder_single_inv h
      exact ⟨n, rfl, hc⟩
    | m :: p =>
      obtain ⟨_, cs', _, hs⟩ := specFolder_cons2_inv h
      obtain ⟨w, hw, hc⟩ := ih cs' hs
      exact ⟨w, by rw [List.getLast?_cons_cons]; exact hw, hc⟩

/-- Is the entry at `p` a junction right now?  Models
`Self::is_junction(&folder_path)` on a path relative to the root. -/
def isJunctionAt (p : Path) (s : Entry) : Bool :=
  match getAt p s with
  | some e => e.isJunction
  | none => false

/-- Success flags for the OS-level effects of `delete_voice_files`:
whether spawning `cmd` succeeds, whether the spawned `rmdir` actually
removes the entry, and whether `fs::remove_file` succeeds. -/
structure DeleteEnv where
  spawnOk : Path → Bool
  rmdirOk : Path → Bool
  removeFileOk : Path → Bool

/-- Models `Self::remove_junction`: spawns `cmd /C rmdir <path>` via
`Command::output()` and returns `Ok(())` whenever spawning succeeded —
the exit status of `rmdir` is never inspected.  The tree loses the entry
only when the spawned `rmdir` itself succeeded. -/
def remove_junction (env : DeleteEnv) (p : Path) (s : Entry) : Bool × Entry :=
  if env.spawnOk p then
    (true, if env.rmdirOk p then removeAt p s else s)
  else (false, s)

/-- Outcome classification of `delete_voice_files` (the distinct
status-message branches of the source). -/
inductive DeleteStatus where
  | notFound : DeleteStatus
  | removeFolderFailed (rel : Path) : DeleteStatus
  | removeFileFailed (rel : Path) : DeleteStatus
  | success (deletedFolders deletedFiles : Nat) : DeleteStatus
deriving DecidableEq

/-- The folder loop of `delete_voice_files`: for each discovered folder,
if it is a junction right now, call `remove_junction`; an `Err` (spawn
failure) aborts; otherwise the counter is incremented. -/
def deleteFolderLoop (env : DeleteEnv) :
    List Path → Entry → Nat → Option Path × Entry × Nat
  | [], s, k => (none, s, k)
  | rel :: rest, s, k =>
    if isJunctionAt rel s then
      match remove_junction env rel s with
      | (true, s') => deleteFolderLoop env rest s' (k + 1)
      | (false, s') => (some rel, s', k)
    else deleteFolderLoop env rest s k

/-- The control-file loop of `delete_voice_files`: for each discovered
control file, if it still exists, remove it; a removal failure aborts. -/
def deleteFileLoop (env : DeleteEnv) :
    List Path → Entry → Nat → Option Path × Entry × Nat
  | [], s, k => (none, s, k)
  | rel :: rest, s, k =>
    if existsAt rel s then
      if env.removeFileOk rel then
        deleteFileLoop env rest (removeAt rel s) (k + 1)
      else (some rel, s, k)
    else deleteFileLoop env rest s k

/-- Models `delete_voice_files` (deactivate) from the point where the
source folder exists: discover folders and control files, report
`notFound` when both lists are empty, otherwise remove junction folders
then control files, aborting on the first failure. -/
def delete_voice_files (env : DeleteEnv) (source : Entry) (lang_code : String) :
    DeleteStatus × Entry :=
  let found := find_voice_files source lang_code
  if found.1.isEmpty && found.2.isEmpty then (.notFound, source)
  else
    match deleteFolderLoop env found.1 source 0 with
    | (some rel, s, _) => (.removeFolderFailed rel, s)
    | (none, s, df) =>
      match deleteFileLoop env found.2 s 0 with
      | (some rel, s', _) => (.removeFileFailed rel, s')
      | (none, s', dt) => (.success df dt, s')

/-- Two distinct reported paths never extend one another. -/
theorem specAny_indep {fns tns : List String} {cs : List (String × Entry)}
    {r q : Path} (hr : specAny fns tns cs r) (hq : specAny fns tns cs q)
    (hne : q ≠ r) : (∀ t, q ≠ r ++ t) ∧ (∀ t, r ≠ q ++ t) := by
  constructor
  · intro t ht
    have := specAny_append r cs t hr (ht ▸ hq)
    subst this
    simp at ht
    exact hne ht
  · intro t ht
    have := specAny_append q cs t hq (ht ▸ hr)
    subst this
    simp at ht
    exact hne ht.symm

/-- A path cannot be reported both as a folder and as a control file. -/
theorem specFolder_specToc_disjoint {fns tns : List String}
    {cs : List (String × Entry)} {r : Path}
    (hf : specFolder fns cs r = true) (ht : specToc fns tns cs r = true) :
    False := by
  obtain ⟨e, hg, hd⟩ := specFolder_getAt r cs hf
  obtain ⟨c, hg'⟩ := specToc_getAt r cs ht
  rw [hg] at hg'
  cases hg'
  cases hd

/-- Behaviour of the folder loop when every OS effect succeeds: it never
fails, preserves well-formedness, leaves paths outside the worklist
untouched, and leaves every reported path whose current entry is not a
junction untouched. -/
theorem deleteFolderLoop_props (fns tns : List String)
    (cs : List (String × Entry)) (env : DeleteEnv)
    (hok : ∀ p, env.spawnOk p = true ∧ env.rmdirOk p = true) :
    ∀ (L : List Path) (s : Entry) (k : Nat),
      Wf s →
      (∀ r ∈ L, specFolder fns cs r = true) →
      (deleteFolderLoop env L s k).1 = none ∧
      Wf (deleteFolderLoop env L s k).2.1 ∧
      (∀ q, specAny fns tns cs q → q ∉ L →
        getAt q (deleteFolderLoop env L s k).2.1 = getAt q s) ∧
      (∀ q e, specAny fns tns cs q → getAt q s = some e →
        e.isJunction = false →
        getAt q (deleteFolderLoop env L s k).2.1 = getAt q s) := by
  intro L
  induction L with
  | nil =>
    intro s k hwf _
    refine ⟨rfl, hwf, ?_, ?_⟩
    · intro q _ _; rfl
    · intro q e _ _ _; rfl
  | cons rel rest ih =>
    intro s k hwf hall
    have hrel : specFolder fns cs rel = true := hall rel (List.mem_cons_self _ _)
    have hrest : ∀ r ∈ rest, specFolder fns cs r = true :=
      fun r hr => hall r (List.mem_cons_of_mem _ hr)
    by_cases hj : isJunctionAt rel s = true
    · obtain ⟨er, hge, hjr⟩ : ∃ er, getAt rel s = some er ∧ er.isJunction = true := by
        unfold isJunctionAt at hj
        match hg : getAt rel s with
        | some e => rw [hg] at hj; exact ⟨e, rfl, hj⟩
        | none => rw [hg] at hj; cases hj
      have hstep : deleteFolderLoop env (rel :: rest) s k =
          deleteFolderLoop env rest (removeAt rel s) (k + 1) := by
        rw [deleteFolderLoop, if_pos hj, remove_junction,
          if_pos (hok rel).1, if_pos (hok rel).2]
      have hne : rel ≠ [] := specFolder_ne_nil hrel
      have hwf' : Wf (removeAt rel s) := hwf.removeAt rel
      obtain ⟨ha, hb, hc, he⟩ :=
        ih (removeAt rel s) (k + 1) hwf' hrest
      rw [hstep]
      refine ⟨ha, hb, ?_, ?_⟩
      · intro q hsq hqL
        have hqrel : q ≠ rel := fun hh => hqL (hh ▸ List.mem_cons_self _ _)
        have hqrest : q ∉ rest := fun hh => hqL (List.mem_cons_of_mem _ hh)
        obtain ⟨h1, h2⟩ := specAny_indep (Or.inl hrel) hsq hqrel
        rw [hc q hsq hqrest, getAt_removeAt rel q s h1 h2]
      · intro q e hsq hge' hje
        have hqrel : q ≠ rel := by
          rintro rfl
          rw [hge] at hge'
          cases hge'
          rw [hjr] at hje
          cases hje
        obtain ⟨h1, h2⟩ := specAny_indep (Or.inl hrel) hsq hqrel
        have hpres : getAt q (removeAt rel s) = getAt q s :=
          getAt_removeAt rel q s h1 h2
        rw [he q e hsq (by rw [hpres]; exact hge') hje, hpres]
    · have hstep : deleteFolderLoop env (rel :: rest) s k =
          deleteFolderLoop env rest s k := by
        rw [deleteFolderLoop, if_neg hj]
      obtain ⟨ha, hb, hc, he⟩ := ih s k hwf hrest
      rw [hstep]
      refine ⟨ha, hb, ?_, ?_⟩
      · intro q hsq hqL
        exact hc q hsq (fun hh => hqL (List.mem_cons_of_mem _ hh))
      · intro q e hsq hge' hje
        exact he q e hsq hge' hje

/-- Behaviour of the control-file loop when `fs::remove_file` always
succeeds: it never fails, preserves well-formedness, leaves paths outside
the worklist untouched, keeps already-removed reported paths removed, and
removes every path in the worklist. -/
theorem deleteFileLoop_props (fns tns : List String)
    (cs : List (String × Entry)) (env : DeleteEnv)
    (hok : ∀ p, env.removeFileOk p = true) :
    ∀ (T : List Path) (s : Entry) (k : Nat),
      Wf s →
      (∀ r ∈ T, specToc fns tns cs r = true) →
      (deleteFileLoop env T s k).1 = none ∧
      Wf (deleteFileLoop env T s k).2.1 ∧
      (∀ q, specAny fns tns cs q → q ∉ T →
        getAt q (deleteFileLoop env T s k).2.1 = getAt q s) ∧
      (∀ q, specAny fns tns cs q → getAt q s = none →
        getAt q (deleteFileLoop env T s k).2.1 = none) ∧
      (∀ q ∈ T, getAt q (deleteFileLoop env T s k).2.1 = none) := by
  intro T
  induction T with
  | nil =>
    intro s k hwf _
    refine ⟨rfl, hwf, ?_, ?_, ?_⟩
    · intro q _ _; rfl
    · intro q _ h; exact h
    · intro q hq; cases hq
  | cons rel rest ih =>
    intro s k hwf hall
    have hrel : specToc fns tns cs rel = true := hall rel (List.mem_cons_self _ _)
    have hrest : ∀ r ∈ rest, specToc fns tns cs r = true :=
      fun r hr => hall r (List.mem_cons_of_mem _ hr)
    have hne : rel ≠ [] := specToc_ne_nil hrel
    by_cases hex : existsAt rel s = true
    · have hstep : deleteFileLoop env (rel :: rest) s k =
          deleteFileLoop env rest (removeAt rel s) (k + 1) := by
        rw [deleteFileLoop, if_pos hex, if_pos (hok rel)]
      have hwf' : Wf (removeAt rel s) := hwf.removeAt rel
      have hrem : getAt rel (removeAt rel s) = none :=
        getAt_removeAt_self rel s hwf hne (by unfold existsAt at hex; exact hex)
      obtain ⟨ha, hb, hc, hf, hd⟩ :=
        ih (removeAt rel s) (k + 1) hwf' hrest
      rw [hstep]
      refine ⟨ha, hb, ?_, ?_, ?_⟩
      · intro q hsq hqL
        have hqrel : q ≠ rel := fun hh => hqL (hh ▸ List.mem_cons_self _ _)
        have hqrest : q ∉ rest := fun hh => hqL (List.mem_cons_of_mem _ hh)
        obtain ⟨h1, h2⟩ := specAny_indep (Or.inr hrel) hsq hqrel
        rw [hc q hsq hqrest, getAt_removeAt rel q s h1 h2]
      · intro q hsq hnone
        by_cases hqrel : q = rel
        · subst hqrel
          exact hf q hsq hrem
        · obtain ⟨h1, h2⟩ := specAny_indep (Or.inr hrel) hsq hqrel
          refine hf q hsq ?_
          rw [getAt_removeAt rel q s h1 h2]
          exact hnone
      · intro q hq
        rcases List.mem_cons.mp hq with rfl | hq'
        · exact hf q (Or.inr hrel) hrem
        · exact hd q hq'
    · have hstep : deleteFileLoop env (rel :: rest) s k =
          deleteFileLoop env rest s k := by
        rw [deleteFileLoop, if_neg hex]
      have hnone : getAt rel s = none := by
        unfold existsAt at hex
        match hg : getAt rel s with
        | some e => rw [hg] at hex; simp at hex
        | none => rfl
      obtain ⟨ha, hb, hc, hf, hd⟩ := ih s k hwf hrest
      rw [hstep]
      refine ⟨ha, hb, ?_, ?_, ?_⟩
      · intro q hsq hqL
        exact hc q hsq (fun hh => hqL (List.mem_cons_of_mem _ hh))
      · intro q hsq hn
        exact hf q hsq hn
      · intro q hq
        rcases List.mem_cons.mp hq with rfl | hq'
        · exact hf q (Or.inr hrel) hnone
        · exact hd q hq'

theorem getAt_childrenOf' (root : Entry) {q : Path} (h : q ≠ []) :
    getAt q root = getAt q (.dir root.childrenOf) := by
  match q with
  | n :: p => exact getAt_childrenOf root n p

/-- Discovery membership, folder side, at the `find_voice_files` level. -/
theorem mem_find_folders_iff {root : Entry} {code : String} (hwf : Wf root)
    (r : Path) :
    r ∈ (find_voice_files root code).1 ↔
      specFolder [code, "vo" ++ code] root.childrenOf r = true := by
  rw [find_voice_files_eq,
    findChildren_mem_folders _ _ [] _ hwf.childrenWfL r]
  constructor
  · rintro ⟨q, rfl, hq⟩
    simpa using hq
  · intro hq
    exact ⟨r, by simp, hq⟩

/-- Discovery membership, control-file side, at the `find_voice_files`
level. -/
theorem mem_find_tocs_iff {root : Entry} {code : String} (hwf : Wf root)
    (r : Path) :
    r ∈ (find_voice_files root code).2 ↔
      specToc [code, "vo" ++ code] [code ++ ".toc", "vo" ++ code ++ ".toc"]
        root.childrenOf r = true := by
  rw [find_voice_files_eq,
    findChildren_mem_tocs _ _ [] _ hwf.childrenWfL r]
  constructor
  · rintro ⟨q, rfl, hq⟩
    simpa using hq
  · intro hq
    exact ⟨r, by simp, hq⟩

theorem Wf.dirNil : Wf (.dir []) := .dir [] List.nodup_nil (by simp)

theorem Wf.junctionNil : Wf (.junction []) := .junction [] List.nodup_nil (by simp)

theorem Wf.dir_cons {name : String} {e : Entry} {cs : List (String × Entry)}
    (hnm : name ∉ cs.map Prod.fst) (hwe : Wf e) (h : Wf (.dir cs)) :
    Wf (.dir ((name, e) :: cs)) := by
  cases h with
  | dir _ hnd hch =>
    refine .dir _ (List.nodup_cons.mpr ⟨hnm, hnd⟩) ?_
    intro p hp
    rcases List.mem_cons.mp hp with rfl | hp'
    · exact hwe
    · exact hch _ hp'

theorem Wf.junction_cons {name : String} {e : Entry} {cs : List (String × Entry)}
    (hnm : name ∉ cs.map Prod.fst) (hwe : Wf e) (h : Wf (.junction cs)) :
    Wf (.junction ((name, e) :: cs)) := by
  cases h with
  | junction _ hnd hch =>
    refine .junction _ (List.nodup_cons.mpr ⟨hnm, hnd⟩) ?_
    intro p hp
    rcases List.mem_cons.mp hp with rfl | hp'
    · exact hwe
    · exact hch _ hp'

/-- C7: discovery matches exactly the folder names `code`, `"vo"+code`
and the file names `code+".toc"`, `"vo"+code+".toc"`: a path is reported
as a folder iff it runs through ordinary non-matching directories and
ends at a directory-like entry with a matching folder name (so a
matching directory is recorded and nothing below it is ever reported),
and is reported as a control file iff it runs through ordinary
non-matching directories and ends at a file with a matching file name;
all reported paths are relative to the scanned root. -/
theorem find_voice_files_characterization (root : Entry) (code : String)
    (hwf : Wf root) :
    (∀ r, r ∈ (find_voice_files root code).1 ↔
      specFolder [code, "vo" ++ code] root.childrenOf r = true) ∧
    (∀ r, r ∈ (find_voice_files root code).2 ↔
      specToc [code, "vo" ++ code] [code ++ ".toc", "vo" ++ code ++ ".toc"]
        root.childrenOf r = true) :=
  ⟨fun r => mem_find_folders_iff hwf r, fun r => mem_find_tocs_iff hwf r⟩

/-- C4: discovery never descends into a link point: every proper
non-empty initial segment of a reported path is an ordinary directory
(so a matching folder reachable only through a link point is never
reported), and a link point is recorded as a folder match only when its
name is one of the two acceptable folder names. -/
theorem find_never_descends_junctions (root : Entry) (code : String)
    (hwf : Wf root) :
    (∀ r, (r ∈ (find_voice_files root code).1 ∨
           r ∈ (find_voice_files root code).2) →
      ∀ k, 0 < k → k < r.length →
        ∃ cs', getAt (r.take k) root = some (.dir cs')) ∧
    (∀ r, r ∈ (find_voice_files root code).1 →
      ∀ e, getAt r root = some e → e.isJunction = true →
        ∃ n, r.getLast? = some n ∧ (n = code ∨ n = "vo" ++ code)) := by
  constructor
  · intro r hr k hk0 hk
    have hspec : specAny [code, "vo" ++ code]
        [code ++ ".toc", "vo" ++ code ++ ".toc"] root.childrenOf r := by
      rcases hr with hr | hr
      · exact Or.inl ((mem_find_folders_iff hwf r).mp hr)
      · exact Or.inr ((mem_find_tocs_iff hwf r).mp hr)
    obtain ⟨cs', hg⟩ := specAny_take r root.childrenOf hspec k hk0 hk
    refine ⟨cs', ?_⟩
    rw [getAt_childrenOf' root ?hne]
    · exact hg
    · have : (r.take k).length = k := by
        rw [List.length_take]
        omega
      intro hnil
      rw [hnil] at this
      simp at this
      omega
  · intro r hr e _ _
    have hspec := (mem_find_folders_iff hwf r).mp hr
    obtain ⟨n, hlast, hc⟩ := specFolder_last r root.childrenOf hspec
    refine ⟨n, hlast, ?_⟩
    simpa using hc

/-- C3: when the OS-level operations succeed, deactivate removes a
discovered folder only if the probe classifies it as a link point at
removal time: every discovered folder whose entry is an ordinary
(non-link) directory survives with its entire subtree unchanged, while
every discovered control file is deleted. -/
theorem delete_preserves_ordinary_dirs (env : DeleteEnv) (source : Entry)
    (code : String) (hwf : Wf source)
    (hok : ∀ p, env.spawnOk p = true ∧ env.rmdirOk p = true ∧
      env.removeFileOk p = true) :
    (∀ r ∈ (find_voice_files source code).1, ∀ e, getAt r source = some e →
      e.isJunction = false →
      getAt r (delete_voice_files env source code).2 = some e) ∧
    (∀ r ∈ (find_voice_files source code).2,
      getAt r (delete_voice_files env source code).2 = none) := by
  set fns := [code, "vo" ++ code] with hfns
  set tns := [code ++ ".toc", "vo" ++ code ++ ".toc"] with htns
  have hallF : ∀ r ∈ (find_voice_files source code).1,
      specFolder fns source.childrenOf r = true :=
    fun r hr => (mem_find_folders_iff hwf r).mp hr
  have hallT : ∀ r ∈ (find_voice_files source code).2,
      specToc fns tns source.childrenOf r = true :=
    fun r hr => (mem_find_tocs_iff hwf r).mp hr
  by_cases hempty : ((find_voice_files source code).1.isEmpty &&
      (find_voice_files source code).2.isEmpty) = true
  · have hres : delete_voice_files env source code = (.notFound, source) := by
      rw [delete_voice_files, if_pos hempty]
    rw [hres]
    constructor
    · intro r _ e hge _
      exact hge
    · intro r hr
      rw [Bool.and_eq_true, List.isEmpty_iff, List.isEmpty_iff] at hempty
      rw [hempty.2] at hr
      cases hr
  · obtain ⟨ha1, hb1, hc1, he1⟩ :=
      deleteFolderLoop_props fns tns source.childrenOf env
        (fun p => ⟨(hok p).1, (hok p).2.1⟩)
        (find_voice_files source code).1 source 0 hwf hallF
    rcases hres1 : deleteFolderLoop env (find_voice_files source code).1 source 0
      with ⟨err1, s1, k1⟩
    rw [hres1] at ha1 hb1 hc1 he1
    simp only at ha1 hb1 hc1 he1
    subst ha1
    obtain ⟨ha2, hb2, hc2, hf2, hd2⟩ :=
      deleteFileLoop_props fns tns source.childrenOf env
        (fun p => (hok p).2.2)
        (find_voice_files source code).2 s1 0 hb1 hallT
    rcases hres2 : deleteFileLoop env (find_voice_files source code).2 s1 0
      with ⟨err2, s2, k2⟩
    rw [hres2] at ha2 hb2 hc2 hf2 hd2
    simp only at ha2 hb2 hc2 hf2 hd2
    subst ha2
    have hres : (delete_voice_files env source code).2 = s2 := by
      simp only [delete_voice_files, hres1, hres2]
      rw [if_neg hempty]
    rw [hres]
    constructor
    · intro r hr e hge hje
      have hspecF := hallF r hr
      have hnotT : r ∉ (find_voice_files source code).2 := by
        intro hrT
        exact specFolder_specToc_disjoint hspecF (hallT r hrT)
      rw [hc2 r (Or.inl hspecF) hnotT, he1 r e (Or.inl hspecF) hge hje, hge]
    · intro r hr
      exact hd2 r hr

/-- C5 (failing input): a discovered junction folder whose spawned
`rmdir` fails — `remove_junction` never inspects the command's exit
status, so deactivate reports overall success, counts the folder as
deleted, and leaves the junction in place: the removal failure is
silently discarded instead of aborting with an IO failure. -/
theorem delete_swallows_rmdir_failure :
    delete_voice_files
      ⟨fun _ => true, fun _ => false, fun _ => true⟩
      (.dir [("en", .junction [])]) "en" =
      (.success 1 0, .dir [("en", .junction [])]) := by
  simp [delete_voice_files, find_voice_files, findChildren, deleteFolderLoop,
    deleteFileLoop, isJunctionAt, remove_junction, getAt, lookupChild,
    Entry.isJunction]

/-- A concrete sample tree: an ordinary matching folder, a matching
junction and control file inside a subdirectory, and a non-matching
junction hiding a matching folder. -/
def sampleRoot : Entry :=
  .dir [("en", .dir []),
        ("sub", .dir [("voen", .junction []), ("voen.toc", .file "t")]),
        ("a", .junction [("en", .dir [])])]

theorem sampleRoot_wf : Wf sampleRoot := by
  refine Wf.dir_cons (by decide) Wf.dirNil ?_
  refine Wf.dir_cons (by decide) ?_ ?_
  · exact Wf.dir_cons (by decide) Wf.junctionNil
      (Wf.dir_cons (by decide) (Wf.file "t") Wf.dirNil)
  · exact Wf.dir_cons (by decide)
      (Wf.junction_cons (by decide) Wf.dirNil Wf.junctionNil) Wf.dirNil

theorem sampleRoot_scan :
    find_voice_files sampleRoot "en" =
      ([["en"], ["sub", "voen"]], [["sub", "voen.toc"]]) := by
  simp [find_voice_files, findChildren, sampleRoot]

/-- Witness for the discovery characterization at a concrete tree. -/
theorem find_voice_files_characterization_witness :
    (["sub", "voen"] ∈ (find_voice_files sampleRoot "en").1 ↔
      specFolder ["en", "vo" ++ "en"] sampleRoot.childrenOf
        ["sub", "voen"] = true) ∧
    ["sub", "voen"] ∈ (find_voice_files sampleRoot "en").1 := by
  refine ⟨(find_voice_files_characterization sampleRoot "en" sampleRoot_wf).1
    ["sub", "voen"], ?_⟩
  rw [sampleRoot_scan]
  simp

/-- Witness for the no-descent invariant at a concrete tree: the first
component of the reported path `["sub", "voen"]` is an ordinary
directory, and the matching folder hidden behind the junction `a` is not
reported. -/
theorem find_never_descends_junctions_witness :
    (∃ cs', getAt (["sub", "voen"].take 1) sampleRoot = some (.dir cs')) ∧
    ["a", "en"] ∉ (find_voice_files sampleRoot "en").1 := by
  constructor
  · refine (find_never_descends_junctions sampleRoot "en" sampleRoot_wf).1
      ["sub", "voen"] (Or.inl ?_) 1 (by decide) (by decide)
    rw [sampleRoot_scan]
    simp
  · rw [sampleRoot_scan]
    simp

/-- Another concrete tree: an ordinary matching folder with content, and
a control file. -/
def sampleDelRoot : Entry :=
  .dir [("de", .dir [("x", .file "data")]), ("de.toc", .file "t")]

theorem sampleDelRoot_wf : Wf sampleDelRoot := by
  refine Wf.dir_cons (by decide) ?_ ?_
  · exact Wf.dir_cons (by decide) (Wf.file "data") Wf.dirNil
  · exact Wf.dir_cons (by decide) (Wf.file "t") Wf.dirNil

/-- All-success removal environment. -/
def sampleDelEnv : DeleteEnv :=
  ⟨fun _ => true, fun _ => true, fun _ => true⟩

theorem sampleDelRoot_scan :
    find_voice_files sampleDelRoot "de" = ([["de"]], [["de.toc"]]) := by
  simp [find_voice_files, findChildren, sampleDelRoot]

/-- Witness: deactivating at a concrete tree leaves the ordinary folder
`de` untouched with its contents and deletes the control file. -/
theorem delete_preserves_ordinary_dirs_witness :
    getAt ["de"] (delete_voice_files sampleDelEnv sampleDelRoot "de").2 =
      some (.dir [("x", .file "data")]) ∧
    getAt ["de.toc"] (delete_voice_files sampleDelEnv sampleDelRoot "de").2 =
      none := by
  have h := delete_preserves_ordinary_dirs sampleDelEnv sampleDelRoot "de"
    sampleDelRoot_wf (fun p => ⟨rfl, rfl, rfl⟩)
  constructor
  · exact h.1 ["de"] (by rw [sampleDelRoot_scan]; simp)
      (.dir [("x", .file "data")]) rfl rfl
  · exact h.2 ["de.toc"] (by rw [sampleDelRoot_scan]; simp)

/-- The eight language codes (the keys inserted by `get_languages`). -/
def lang_codes : List String := ["en", "ja", "cn", "de", "fr", "es", "ru", "ko"]

/-- Pieces of a character list split at newline characters (the pieces
of `str::split('\n')`). -/
def splitNl : List Char → List (List Char)
  | [] => [[]]
  | c :: rest =>
    if c = '\n' then [] :: splitNl rest
    else
      match splitNl rest with
      | s :: ss => (c :: s) :: ss
      | [] => [[c]]

/-- Drop one trailing carriage return, as `str::lines` does per line. -/
def dropCr (l : List Char) : List Char :=
  if l.getLast? = some '\r' then l.dropLast else l

/-- Models `str::lines`: split at `'\n'`, drop a final empty piece (a
trailing line ending yields no extra line), and strip one `'\r'` from
each line end. -/
def rustLines (l : List Char) : List (List Char) :=
  if l = [] then []
  else
    let parts := splitNl l
    let parts := if parts.getLast? = some [] then parts.dropLast else parts
    parts.map dropCr

/-- Character-list version of `str::starts_with`. -/
def startsWithL : List Char → List Char → Bool
  | [], _ => true
  | _ :: _, [] => false
  | p :: ps, c :: cs => p = c && startsWithL ps cs

theorem startsWithL_length {p s : List Char} (h : startsWithL p s = true) :
    p.length ≤ s.length := by
  induction p generalizing s with
  | nil => simp
  | cons a ps ih =>
    match s with
    | [] => cases h
    | c :: cs =>
      rw [startsWithL, Bool.and_eq_true] at h
      simpa using ih h.2

/-- The fixed manifest key of the backup store. -/
def buildIdKey : List Char := "build_id=".toList

/-- Models `str::trim_start_matches("build_id=")`: strip every leading
repetition of the key. -/
def trimBuildIdKey (s : List Char) : List Char :=
  if h : startsWithL buildIdKey s then trimBuildIdKey (s.drop 9) else s
termination_by s.length
decreasing_by
  have h9 : (9 : Nat) ≤ s.length := by
    have := startsWithL_length h
    simpa [buildIdKey] using this
  simp only [List.length_drop]
  omega

/-- Models the manifest read of `refresh_backups`: the first line
starting with `build_id=`, with every leading repetition of the key
stripped; empty when no such line exists. -/
def parse_build_id (content : String) : String :=
  match (rustLines content.toList).find? (fun l => startsWithL buildIdKey l) with
  | some l => ⟨trimBuildIdKey l⟩
  | none => ""

/-- One listed backup record: a language code and a recorded build id. -/
structure BackupInfo where
  lang_code : String
  build_id : String
deriving DecidableEq

/-- The build id derived from one snapshot directory entry: read
`backup_info.txt` inside it, treating a missing manifest — or one that
is not an ordinary file (`fs::read_to_string` fails on directories and
directory links) — as the empty build id. -/
def snapshotBuildId (e : Entry) : String :=
  match lookupChild "backup_info.txt" e.childrenOf with
  | some (.file content) => parse_build_id content
  | _ => ""

/-- The directory-entry loop of `refresh_backups`: keep entries that are
directories (`entry.path().is_dir()`, which follows junctions) whose
name is a known language code; the entry name is the record's code. -/
def refreshLoop : List (String × Entry) → List BackupInfo
  | [] => []
  | (name, e) :: rest =>
    if e.isDirLike then
      if lang_codes.contains name then
        ⟨name, snapshotBuildId e⟩ :: refreshLoop rest
      else refreshLoop rest
    else refreshLoop rest

/-- Models `refresh_backups`: an absent backup root (`fs::read_dir`
fails) yields no records; otherwise scan the root's entries. -/
def refresh_backups (backupRoot : Option Entry) : List BackupInfo :=
  match backupRoot with
  | none => []
  | some root => refreshLoop root.childrenOf

/-- Listing membership, as a reusable characterization. -/
theorem refresh_mem_iff (root : Entry) (info : BackupInfo) :
    info ∈ refresh_backups (some root) ↔
      ∃ e, (info.lang_code, e) ∈ root.childrenOf ∧ e.isDirLike = true ∧
        info.lang_code ∈ lang_codes ∧ info.build_id = snapshotBuildId e := by
  show info ∈ refreshLoop root.childrenOf ↔ _
  induction root.childrenOf with
    | nil => simp [refreshLoop]
    | cons hd rest ih =>
      obtain ⟨name, e⟩ := hd
      by_cases hd1 : e.isDirLike = true
      · by_cases hd2 : lang_codes.contains name = true
        · rw [refreshLoop, if_pos hd1, if_pos hd2]
          constructor
          · intro hmem
            rcases List.mem_cons.mp hmem with rfl | hmem'
            · exact ⟨e, List.mem_cons_self _ _, hd1, by simpa using hd2, rfl⟩
            · obtain ⟨e', hm, h1, h2, h3⟩ := ih.mp hmem'
              exact ⟨e', List.mem_cons_of_mem _ hm, h1, h2, h3⟩
          · rintro ⟨e', hm, h1, h2, h3⟩
            rcases List.mem_cons.mp hm with heq | hm'
            · obtain ⟨info1, info2⟩ := info
              cases heq
              cases h3
              exact List.mem_cons_self _ _
            · exact List.mem_cons_of_mem _ (ih.mpr ⟨e', hm', h1, h2, h3⟩)
        · rw [refreshLoop, if_pos hd1, if_neg hd2]
          rw [ih]
          constructor
          · rintro ⟨e', hm, h1, h2, h3⟩
            exact ⟨e', List.mem_cons_of_mem _ hm, h1, h2, h3⟩
          · rintro ⟨e', hm, h1, h2, h3⟩
            rcases List.mem_cons.mp hm with heq | hm'
            · obtain ⟨info1, info2⟩ := info
              cases heq
              exact absurd (by simpa using h2) (fun hh => hd2 hh)
            · exact ⟨e', hm', h1, h2, h3⟩
      · rw [refreshLoop, if_neg hd1]
        rw [ih]
        constructor
        · rintro ⟨e', hm, h1, h2, h3⟩
          exact ⟨e', List.mem_cons_of_mem _ hm, h1, h2, h3⟩
        · rintro ⟨e', hm, h1, h2, h3⟩
          rcases List.mem_cons.mp hm with heq | hm'
          · obtain ⟨info1, info2⟩ := info
            cases heq
            exact absurd h1 hd1
          · exact ⟨e', hm', h1, h2, h3⟩
/-- C6: listing enumerates exactly the directory-like entries of the
backup root named by a known language code, taking the directory name as
the record's code and reading the build id tolerantly (a missing
manifest gives the empty build id); an absent root gives the empty
list. -/
theorem refresh_backups_characterization :
    refresh_backups none = [] ∧
    (∀ (root : Entry) (info : BackupInfo),
      info ∈ refresh_backups (some root) ↔
        ∃ e, (info.lang_code, e) ∈ root.childrenOf ∧ e.isDirLike = true ∧
          info.lang_code ∈ lang_codes ∧ info.build_id = snapshotBuildId e) ∧
    (∀ e : Entry, lookupChild "backup_info.txt" e.childrenOf = none →
      snapshotBuildId e = "") := by
  refine ⟨rfl, refresh_mem_iff, ?_⟩
  intro e he
  rw [snapshotBuildId, he]

/-- Witness for the listing characterization: a store with one valid
snapshot, one unknown-code directory, one manifest-less snapshot and one
plain file. -/
theorem refresh_backups_characterization_witness :
    (⟨"en", "123"⟩ : BackupInfo) ∈ refresh_backups (some (.dir
      [("en", .dir [("backup_info.txt", .file "build_id=123\nlang_code=xx\n")]),
       ("zz", .dir []),
       ("de", .dir []),
       ("ja", .file "junk")])) ∧
    snapshotBuildId (.dir []) = "" := by
  constructor
  · have htrim : trimBuildIdKey ("build_id=123".toList) = "123".toList := by
      rw [trimBuildIdKey, dif_pos (by decide)]
      rw [trimBuildIdKey, dif_neg (by decide)]
      decide
    have hbid : parse_build_id "build_id=123\nlang_code=xx\n" = "123" := by
      rw [parse_build_id]
      rw [show rustLines ("build_id=123\nlang_code=xx\n".toList) =
        ["build_id=123".toList, "lang_code=xx".toList] from by decide]
      rw [show List.find? (fun l => startsWithL buildIdKey l)
          ["build_id=123".toList, "lang_code=xx".toList] =
          some ("build_id=123".toList) from by decide]
      show (⟨trimBuildIdKey ("build_id=123".toList)⟩ : String) = "123"
      rw [htrim]
      rfl
    refine (refresh_backups_characterization.2.1 _ _).mpr
      ⟨.dir [("backup_info.txt", .file "build_id=123\nlang_code=xx\n")],
        by simp [Entry.childrenOf], rfl, by simp [lang_codes], ?_⟩
    show ("123" : String) = parse_build_id "build_id=123\nlang_code=xx\n"
    rw [hbid]
  · exact refresh_backups_characterization.2.2 (.dir []) rfl

/-- Models `str::split('"')`: the pieces of a line around double-quote
characters. -/
def splitQuote : List Char → List (List Char)
  | [] => [[]]
  | c :: rest =>
    if c = '"' then [] :: splitQuote rest
    else
      match splitQuote rest with
      | s :: ss => (c :: s) :: ss
      | [] => [[c]]

/-- Models `extract_vdf_value`: split the line at `'"'`; when at least
four pieces exist (at least three quote characters), return the piece at
index 3, else nothing. -/
def extract_vdf_value (line : List Char) : Option (List Char) :=
  let parts := splitQuote line
  if 4 ≤ parts.length then parts[3]? else none

/-- Everything after the first double quote of a line. -/
def afterQuote (l : List Char) : List Char :=
  (l.dropWhile (fun c => c ≠ '"')).drop 1

/-- Spec-side description of the extractor (the ConfigTextParser
contract): the text after the third double-quote character, up to the
fourth double quote or the end of the line; nothing when the line
contains fewer than three double-quote characters. -/
def specVdfValue (line : List Char) : Option (List Char) :=
  if 3 ≤ line.count '"' then
    some ((afterQuote (afterQuote (afterQuote line))).takeWhile (fun c => c ≠ '"'))
  else none

/-- Models `str::replace("\x5c\x5c", "\x5c")`, left-to-right and
non-overlapping: collapse doubled backslashes. -/
def collapseBackslashes : List Char → List Char
  | [] => []
  | c :: rest =>
    if c = '\\' then
      match rest with
      | '\\' :: rest' => '\\' :: collapseBackslashes rest'
      | r => c :: collapseBackslashes r
    else c :: collapseBackslashes rest

/-- Character-list version of `str::contains` for a fixed pattern. -/
def containsSub (pat : List Char) : List Char → Bool
  | [] => startsWithL pat []
  | c :: rest => startsWithL pat (c :: rest) || containsSub pat rest

/-- The quoted key looked for by `get_library_folders`. -/
def pathKey : List Char := "\"path\"".toList

/-- The per-line value computation of `get_library_folders`: a line
containing the quoted key `path` yields the extracted value with doubled
backslashes collapsed; any other line is ignored. -/
def libraryFolderValue (line : List Char) : Option (List Char) :=
  if containsSub pathKey line then
    (extract_vdf_value line).map collapseBackslashes
  else none

theorem splitQuote_ne_nil (l : List Char) : splitQuote l ≠ [] := by
  match l with
  | [] => simp [splitQuote]
  | c :: rest =>
    rw [splitQuote]
    by_cases hc : c = '"'
    · simp [hc]
    · rw [if_neg hc]
      match h : splitQuote rest with
      | s :: ss => simp
      | [] => exact absurd h (splitQuote_ne_nil rest)

theorem splitQuote_length (l : List Char) :
    (splitQuote l).length = l.count '"' + 1 := by
  induction l with
  | nil => simp [splitQuote]
  | cons c rest ih =>
    rw [splitQuote]
    by_cases hc : c = '"'
    · subst hc
      simp [List.count_cons, ih]
    · rw [if_neg hc]
      match h : splitQuote rest with
      | s :: ss =>
        rw [h] at ih
        simp only [List.length_cons] at ih ⊢
        rw [List.count_cons, if_neg (by simpa using hc)]
        omega
      | [] => exact absurd h (splitQuote_ne_nil rest)

theorem splitQuote_head (l : List Char) :
    (splitQuote l)[0]? = some (l.takeWhile (fun c => c ≠ '"')) := by
  induction l with
  | nil => simp [splitQuote]
  | cons c rest ih =>
    rw [splitQuote]
    by_cases hc : c = '"'
    · subst hc
      simp [List.takeWhile_cons]
    · rw [if_neg hc]
      match h : splitQuote rest with
      | s :: ss =>
        rw [h] at ih
        simp only [List.getElem?_cons_zero, Option.some.injEq] at ih
        simp [List.takeWhile_cons, hc, ih]
      | [] => exact absurd h (splitQuote_ne_nil rest)

theorem count_afterQuote (l : List Char) (h : 1 ≤ l.count '"') :
    (afterQuote l).count '"' = l.count '"' - 1 := by
  induction l with
  | nil => simp at h
  | cons c rest ih =>
    by_cases hc : c = '"'
    · subst hc
      rw [show afterQuote ('"' :: rest) = rest from by
        simp [afterQuote, List.dropWhile_cons]]
      simp [List.count_cons]
    · rw [show afterQuote (c :: rest) = afterQuote rest from by
        simp [afterQuote, List.dropWhile_cons, hc]]
      rw [List.count_cons, if_neg (by simpa using hc)] at h ⊢
      simp only [Nat.add_zero] at h ⊢
      exact ih h

theorem splitQuote_succ (l : List Char) (h : 1 ≤ l.count '"') (k : Nat) :
    (splitQuote l)[k + 1]? = (splitQuote (afterQuote l))[k]? := by
  induction l with
  | nil => simp at h
  | cons c rest ih =>
    by_cases hc : c = '"'
    · subst hc
      rw [show afterQuote ('"' :: rest) = rest from by
        simp [afterQuote, List.dropWhile_cons]]
      rw [splitQuote, if_pos rfl]
      simp
    · rw [show afterQuote (c :: rest) = afterQuote rest from by
        simp [afterQuote, List.dropWhile_cons, hc]]
      rw [List.count_cons, if_neg (by simpa using hc)] at h
      simp only [Nat.add_zero] at h
      rw [splitQuote, if_neg hc]
      match hs : splitQuote rest with
      | s :: ss =>
        have := ih h
        rw [hs] at this
        simpa using this
      | [] => exact absurd hs (splitQuote_ne_nil rest)

/-- C8: the extractor returns the fourth quote-split piece — the text
between the third and fourth double-quote characters (or the end of the
line) — and nothing when the line holds fewer than three double quotes;
for library-folders `path` lines the extracted value has its doubled
backslashes collapsed to single ones. -/
theorem extract_vdf_value_spec :
    (∀ line : List Char, extract_vdf_value line = specVdfValue line) ∧
    (∀ line : List Char, containsSub pathKey line = true →
      libraryFolderValue line =
        (extract_vdf_value line).map collapseBackslashes) ∧
    (∀ a b : List Char, '\\' ∉ a →
      collapseBackslashes (a ++ '\\' :: '\\' :: b) =
        a ++ '\\' :: collapseBackslashes b) := by
  refine ⟨?_, ?_, ?_⟩
  · intro line
    rw [extract_vdf_value, specVdfValue]
    by_cases h : 3 ≤ line.count '"'
    · rw [if_pos h, if_pos (by rw [splitQuote_length]; omega)]
      have h1 : 1 ≤ line.count '"' := by omega
      have h2 : 1 ≤ (afterQuote line).count '"' := by
        rw [count_afterQuote line h1]; omega
      have h3 : 1 ≤ (afterQuote (afterQuote line)).count '"' := by
        rw [count_afterQuote _ h2, count_afterQuote line h1]; omega
      rw [show (3 : Nat) = 2 + 1 from rfl, splitQuote_succ line h1,
        show (2 : Nat) = 1 + 1 from rfl, splitQuote_succ _ h2,
        show (1 : Nat) = 0 + 1 from rfl, splitQuote_succ _ h3,
        splitQuote_head]
    · rw [if_neg h, if_neg (by rw [splitQuote_length]; omega)]
  · intro line hc
    rw [libraryFolderValue, if_pos hc]
  · intro a b ha
    have hcons : ∀ (c : Char) (l : List Char), c ≠ '\\' →
        collapseBackslashes (c :: l) = c :: collapseBackslashes l := by
      intro c l hc
      rw [collapseBackslashes.eq_def]
      simp only [if_neg hc]
    induction a with
    | nil =>
      rw [List.nil_append, List.nil_append, collapseBackslashes.eq_def]
      simp
    | cons c a' ih =>
      simp only [List.mem_cons] at ha
      push_neg at ha
      rw [List.cons_append, hcons c _ (fun hh => ha.1 hh.symm), ih ha.2,
        List.cons_append]

/-- Witness: a concrete library-folders `path` line with doubled
backslashes. -/
theorem extract_vdf_value_spec_witness :
    extract_vdf_value ("\"path\" \"D:\\\\Games\\\\Steam\"".toList) =
      specVdfValue ("\"path\" \"D:\\\\Games\\\\Steam\"".toList) ∧
    libraryFolderValue ("\"path\" \"D:\\\\Games\\\\Steam\"".toList) =
      some ("D:\\Games\\Steam".toList) := by
  refine ⟨extract_vdf_value_spec.1 _, ?_⟩
  rw [extract_vdf_value_spec.2.1 _ (by decide)]
  rw [show extract_vdf_value ("\"path\" \"D:\\\\Games\\\\Steam\"".toList) =
    some ("D:\\\\Games\\\\Steam".toList) from by decide]
  rw [Option.map_some']
  rw [show collapseBackslashes ("D:\\\\Games\\\\Steam".toList) =
    "D:\\Games\\Steam".toList from by simp [collapseBackslashes]]

/-- Read-only filesystem for Steam detection: absolute paths as
component lists, with existence and file-content queries. -/
structure DetectEnv where
  pathExists : Path → Bool
  readFile : Path → Option String

/-- The fixed application id (`BF6_APP_ID`). -/
def BF6_APP_ID : String := "2807960"

/-- A detected installation: the game path and its build id. -/
structure SteamInfo where
  game_path : Path
  build_id : String
deriving DecidableEq

/-- The line loop of `parse_app_manifest`: the last line containing the
quoted `installdir` key sets the install directory, the last line
containing the quoted `buildid` key (and not `installdir`) sets the
build id; extraction failures leave the empty value. -/
def manifestLoop : List (List Char) → List Char → List Char → List Char × List Char
  | [], d, b => (d, b)
  | line :: rest, d, b =>
    if containsSub ("\"installdir\"".toList) line then
      manifestLoop rest ((extract_vdf_value line).getD []) b
    else if containsSub ("\"buildid\"".toList) line then
      manifestLoop rest d ((extract_vdf_value line).getD [])
    else manifestLoop rest d b

/-- Models `parse_app_manifest`: succeeds only when both extracted
values are non-empty. -/
def parse_app_manifest (content : String) : Option (String × String) :=
  let r := manifestLoop (rustLines content.toList) [] []
  if r.1 ≠ [] ∧ r.2 ≠ [] then some (⟨r.1⟩, ⟨r.2⟩) else none

/-- Path components of an absolute path string (split at backslashes). -/
def splitBackslash : List Char → List (List Char)
  | [] => [[]]
  | c :: rest =>
    if c = '\\' then [] :: splitBackslash rest
    else
      match splitBackslash rest with
      | s :: ss => (c :: s) :: ss
      | [] => [[c]]

/-- `PathBuf::from` on an extracted string value. -/
def pathOfChars (l : List Char) : Path :=
  (splitBackslash l).map (fun cs => ⟨cs⟩)

/-- The line loop of `get_library_folders`: each `path` line whose
normalized value exists on disk and is not already collected is
appended. -/
def libraryLinesLoop (env : DetectEnv) :
    List (List Char) → List Path → List Path
  | [], folders => folders
  | line :: rest, folders =>
    if containsSub pathKey line then
      match extract_vdf_value line with
      | some v =>
        let path := pathOfChars (collapseBackslashes v)
        if env.pathExists path && !folders.contains path then
          libraryLinesLoop env rest (folders ++ [path])
        else libraryLinesLoop env rest folders
      | none => libraryLinesLoop env rest folders
    else libraryLinesLoop env rest folders

/-- Models `get_library_folders`: the Steam root itself plus every
existing library listed in `steamapps/libraryfolders.vdf` (an unreadable
descriptor leaves just the root). -/
def get_library_folders (env : DetectEnv) (steam_path : Path) : List Path :=
  match env.readFile (steam_path ++ ["steamapps", "libraryfolders.vdf"]) with
  | some content => libraryLinesLoop env (rustLines content.toList) [steam_path]
  | none => [steam_path]

/-- The library loop of `parse_steam_info`: the first library whose
per-application manifest exists and parses yields the installation; a
missing or unparsable manifest advances to the next library. -/
def steamLibLoop (env : DetectEnv) : List Path → Option SteamInfo
  | [] => none
  | lib :: rest =>
    if env.pathExists (lib ++ ["steamapps", "appmanifest_" ++ BF6_APP_ID ++ ".acf"]) then
      match (match env.readFile
              (lib ++ ["steamapps", "appmanifest_" ++ BF6_APP_ID ++ ".acf"]) with
             | some content => parse_app_manifest content
             | none => none) with
      | some db => some ⟨lib ++ ["steamapps", "common", db.1], db.2⟩
      | none => steamLibLoop env rest
    else steamLibLoop env rest

/-- Models `parse_steam_info`. -/
def parse_steam_info (env : DetectEnv) (steam_path : Path) : Option SteamInfo :=
  steamLibLoop env (get_library_folders env steam_path)

/-- The hard-coded candidate Steam roots. -/
def possible_steam_paths : List Path :=
  [["C:", "Program Files (x86)", "Steam"],
   ["C:", "Program Files", "Steam"],
   ["D:", "Steam"],
   ["E:", "Steam"],
   ["D:", "Program Files (x86)", "Steam"],
   ["E:", "Program Files (x86)", "Steam"]]

/-- The candidate loop of `detect_steam`: the first candidate with a
`steam.exe` whose libraries yield an installation wins; every other
candidate is skipped. -/
def detectLoop (env : DetectEnv) : List Path → Option SteamInfo
  | [] => none
  | sp :: rest =>
    if env.pathExists (sp ++ ["steam.exe"]) then
      match parse_steam_info env sp with
      | some info => some info
      | none => detectLoop env rest
    else detectLoop env rest

/-- Models `detect_steam` (the state update to `self.steam_info` is the
returned option). -/
def detect_steam (env : DetectEnv) : Option SteamInfo :=
  detectLoop env possible_steam_paths

/-- C9: resolution yields an installation only when both manifest values
are non-empty, the install path is the library's `steamapps/common`
joined with the install directory, failed candidates are skipped, and
total failure yields the no-installation state. -/
theorem steam_detection_spec :
    (∀ (content d b : String),
      parse_app_manifest content = some (d, b) → d ≠ "" ∧ b ≠ "") ∧
    (∀ (env : DetectEnv) (sp : Path) (info : SteamInfo),
      parse_steam_info env sp = some info →
      ∃ lib ∈ get_library_folders env sp, ∃ (content : String) (d b : String),
        env.readFile (lib ++ ["steamapps", "appmanifest_" ++ BF6_APP_ID ++ ".acf"]) =
          some content ∧
        parse_app_manifest content = some (d, b) ∧
        info.game_path = lib ++ ["steamapps", "common", d] ∧
        info.build_id = b) ∧
    (∀ (env : DetectEnv) (sp : Path) (rest : List Path),
      (env.pathExists (sp ++ ["steam.exe"]) = false ∨
        parse_steam_info env sp = none) →
      detectLoop env (sp :: rest) = detectLoop env rest) ∧
    (∀ env : DetectEnv,
      (∀ sp ∈ possible_steam_paths,
        env.pathExists (sp ++ ["steam.exe"]) = false ∨
        parse_steam_info env sp = none) →
      detect_steam env = none) := by
  have lib_step : ∀ (env : DetectEnv) (L : List Path) (info : SteamInfo),
      steamLibLoop env L = some info →
      ∃ lib ∈ L, ∃ (content : String) (d b : String),
        env.readFile (lib ++ ["steamapps", "appmanifest_" ++ BF6_APP_ID ++ ".acf"]) =
          some content ∧
        parse_app_manifest content = some (d, b) ∧
        info.game_path = lib ++ ["steamapps", "common", d] ∧
        info.build_id = b := by
    intro env L
    induction L with
    | nil => intro info h; cases h
    | cons lib rest ih =>
      intro info h
      rw [steamLibLoop] at h
      by_cases hex : env.pathExists
          (lib ++ ["steamapps", "appmanifest_" ++ BF6_APP_ID ++ ".acf"]) = true
      · rw [if_pos hex] at h
        match hr : env.readFile
            (lib ++ ["steamapps", "appmanifest_" ++ BF6_APP_ID ++ ".acf"]) with
        | some content =>
          rw [hr] at h
          have h2 : (match parse_app_manifest content with
              | some db =>
                some (⟨lib ++ ["steamapps", "common", db.1], db.2⟩ : SteamInfo)
              | none => steamLibLoop env rest) = some info := h
          match hp : parse_app_manifest content with
          | some db =>
            rw [hp] at h2
            have h3 : some (⟨lib ++ ["steamapps", "common", db.1], db.2⟩ :
              SteamInfo) = some info := h2
            cases h3
            exact ⟨lib, List.mem_cons_self _ _, content, db.1, db.2, hr,
              by rw [hp], rfl, rfl⟩
          | none =>
            rw [hp] at h2
            obtain ⟨lib', hm, rest'⟩ := ih info h2
            exact ⟨lib', List.mem_cons_of_mem _ hm, rest'⟩
        | none =>
          rw [hr] at h
          have h2 : steamLibLoop env rest = some info := h
          obtain ⟨lib', hm, rest'⟩ := ih info h2
          exact ⟨lib', List.mem_cons_of_mem _ hm, rest'⟩
      · rw [if_neg hex] at h
        obtain ⟨lib', hm, rest'⟩ := ih info h
        exact ⟨lib', List.mem_cons_of_mem _ hm, rest'⟩
  have detect_step : ∀ (env : DetectEnv) (sp : Path) (rest : List Path),
      (env.pathExists (sp ++ ["steam.exe"]) = false ∨
        parse_steam_info env sp = none) →
      detectLoop env (sp :: rest) = detectLoop env rest := by
    intro env sp rest h
    rw [detectLoop]
    rcases h with h | h
    · rw [h]
      simp
    · by_cases hex : env.pathExists (sp ++ ["steam.exe"]) = true
      · rw [if_pos hex, h]
      · rw [if_neg hex]
  refine ⟨?_, ?_, detect_step, ?_⟩
  · intro content d b h
    rw [parse_app_manifest] at h
    by_cases hc : (manifestLoop (rustLines content.toList) [] []).1 ≠ [] ∧
        (manifestLoop (rustLines content.toList) [] []).2 ≠ []
    · rw [if_pos hc] at h
      cases h
      constructor
      · intro he
        exact hc.1 (congrArg String.data he)
      · intro he
        exact hc.2 (congrArg String.data he)
    · rw [if_neg hc] at h
      cases h
  · intro env sp info h
    exact lib_step env _ info h
  · intro env hall
    rw [detect_steam]
    have : ∀ L : List Path, (∀ sp ∈ L,
        env.pathExists (sp ++ ["steam.exe"]) = false ∨
        parse_steam_info env sp = none) → detectLoop env L = none := by
      intro L
      induction L with
      | nil => intro _; rfl
      | cons sp rest ih =>
        intro hL
        rw [detect_step env sp rest (hL sp (List.mem_cons_self _ _))]
        exact ih (fun p hp => hL p (List.mem_cons_of_mem _ hp))
    exact this _ hall

/-- Witness: a concrete per-application manifest parse. -/
theorem steam_detection_spec_witness :
    parse_app_manifest "\"installdir\" \"BF6\"\n\"buildid\" \"777\"" =
      some ("BF6", "777") ∧
    ("BF6" : String) ≠ "" ∧ ("777" : String) ≠ "" := by
  have hp : parse_app_manifest "\"installdir\" \"BF6\"\n\"buildid\" \"777\"" =
      some ("BF6", "777") := by decide
  exact ⟨hp, steam_detection_spec.1 "\"installdir\" \"BF6\"\n\"buildid\" \"777\""
    "BF6" "777" hp⟩

/-- Insert or replace the (first) child with the given name. -/
def setChild (name : String) (v : Entry) : List (String × Entry) → List (String × Entry)
  | [] => [(name, v)]
  | (n, e) :: rest =>
    if n = name then (n, v) :: rest else (n, e) :: setChild name v rest

/-- Write an entry at a relative path whose parent directories exist;
identity when an intermediate component is missing or is a file. -/
def setAt : Path → Entry → Entry → Entry
  | [], v, _ => v
  | [n], v, .dir cs => .dir (setChild n v cs)
  | [n], v, .junction cs => .junction (setChild n v cs)
  | [_], _, .file c => .file c
  | n :: p, v, .dir cs => .dir (updateChildren n (fun c => setAt p v c) cs)
  | n :: p, v, .junction cs => .junction (updateChildren n (fun c => setAt p v c) cs)
  | _ :: _, _, .file c => .file c
termination_by p _ _ => p.length
decreasing_by all_goals simp

/-- Models `fs::create_dir_all`: create every missing directory along
the path; existing entries on the way are left with their kind (the real
call would fail on a file, which the failure flags of the environments
model). -/
def mkdirAll : Path → Entry → Entry
  | [], e => e
  | n :: p, .dir cs =>
    match lookupChild n cs with
    | some _ => .dir (updateChildren n (fun c => mkdirAll p c) cs)
    | none => .dir (cs ++ [(n, mkdirAll p (.dir []))])
  | n :: p, .junction cs =>
    match lookupChild n cs with
    | some _ => .junction (updateChildren n (fun c => mkdirAll p c) cs)
    | none => .junction (cs ++ [(n, mkdirAll p (.dir []))])
  | _ :: _, .file c => .file c
termination_by p _ => p.length
decreasing_by all_goals simp

/-- Success flags for the OS effects of `restore_files`: removing an
existing junction (spawn and `rmdir`), `fs::create_dir_all`, `mklink /J`
(spawn and status checked together, as `create_junction` does), and
`fs::copy`. -/
structure RestoreEnv where
  rmSpawnOk : Path → Bool
  rmdirOk : Path → Bool
  mkdirOk : Path → Bool
  mklinkOk : Path → Bool
  copyOk : Path → Bool

/-- Outcome classification of `restore_files` (the distinct
status-message branches of the source). -/
inductive RestoreStatus where
  | notFound : RestoreStatus
  | versionMismatch (backupId currentId : String) : RestoreStatus
  | mkdirFailed (rel : Path) : RestoreStatus
  | linkFailed (rel : Path) : RestoreStatus
  | copyFailed (rel : Path) : RestoreStatus
  | restored (links tocs : Nat) : RestoreStatus
  | nothingToRestore : RestoreStatus
deriving DecidableEq

/-- The folder loop of `restore_files`: for each folder discovered in
the snapshot, remove an existing junction at the destination (errors
ignored), create the destination's parent directories, and create a
junction pointing at the snapshot subtree.  The created junction is
modelled with the snapshot subtree's current children. -/
def restoreFolderLoop (env : RestoreEnv) (bt : Entry) :
    List Path → Entry → Nat → Option RestoreStatus × Entry × Nat
  | [], t, k => (none, t, k)
  | rel :: rest, t, k =>
    let t1 := if isJunctionAt rel t then
        (if env.rmSpawnOk rel && env.rmdirOk rel then removeAt rel t else t)
      else t
    if env.mkdirOk rel.dropLast then
      let t2 := mkdirAll rel.dropLast t1
      if env.mklinkOk rel then
        let linked := Entry.junction (match getAt rel bt with
          | some e => e.childrenOf
          | none => [])
        restoreFolderLoop env bt rest (setAt rel linked t2) (k + 1)
      else (some (.linkFailed rel), t2, k)
    else (some (.mkdirFailed rel), t1, k)

/-- The control-file loop of `restore_files`: create the destination's
parent directories and copy the snapshot file. -/
def restoreFileLoop (env : RestoreEnv) (bt : Entry) :
    List Path → Entry → Nat → Option RestoreStatus × Entry × Nat
  | [], t, k => (none, t, k)
  | rel :: rest, t, k =>
    if env.mkdirOk rel.dropLast then
      let t1 := mkdirAll rel.dropLast t
      if env.copyOk rel then
        let copied := (match getAt rel bt with
          | some e => e
          | none => Entry.file "")
        restoreFileLoop env bt rest (setAt rel copied t1) (k + 1)
      else (some (.copyFailed rel), t1, k)
    else (some (.mkdirFailed rel), t, k)

/-- The part of `restore_files` after the version guard: discover the
snapshot's folders and files, link the folders and copy the files; the
final status mirrors the source's message logic, where a failure with
zero restored entries is reported as an empty backup. -/
def restoreAfterGuard (env : RestoreEnv) (bt : Entry) (code : String)
    (target : Entry) : RestoreStatus × Entry :=
  let found := find_voice_files bt code
  let r1 := restoreFolderLoop env bt found.1 target 0
  match r1.1 with
  | some st =>
    if r1.2.2 = 0 then (.nothingToRestore, r1.2.1) else (st, r1.2.1)
  | none =>
    let r2 := restoreFileLoop env bt found.2 r1.2.1 0
    match r2.1 with
    | some st =>
      if r1.2.2 = 0 ∧ r2.2.2 = 0 then (.nothingToRestore, r2.2.1)
      else (st, r2.2.1)
    | none =>
      if 0 < r1.2.2 ∨ 0 < r2.2.2 then (.restored r1.2.2 r2.2.2, r2.2.1)
      else (.nothingToRestore, r2.2.1)

/-- Models `check_version_match` for one selected record: the pair of
ids when the recorded build id is non-empty, an installation is
detected, and the ids differ; nothing otherwise. -/
def check_version_match (backup : BackupInfo) (steamBuildId : Option String) :
    Option (String × String) :=
  match steamBuildId with
  | some sid =>
    if backup.build_id ≠ "" ∧ backup.build_id ≠ sid then
      some (backup.build_id, sid)
    else none
  | none => none

/-- Models `restore_files` (activate) for one selected record: a missing
snapshot directory fails with `notFound`; then the version guard blocks
with `versionMismatch` before any filesystem operation; otherwise the
snapshot is linked and copied into the target. -/
def restore_files (env : RestoreEnv) (backup : BackupInfo)
    (backupTree : Option Entry) (steamBuildId : Option String)
    (target : Entry) : RestoreStatus × Entry :=
  match backupTree with
  | none => (.notFound, target)
  | some bt =>
    match check_version_match backup steamBuildId with
    | some ids => (.versionMismatch ids.1 ids.2, target)
    | none => restoreAfterGuard env bt backup.lang_code target

theorem restoreFolderLoop_no_mismatch (env : RestoreEnv) (bt : Entry) :
    ∀ (L : List Path) (t : Entry) (k : Nat) (b s : String),
      (restoreFolderLoop env bt L t k).1 ≠ some (.versionMismatch b s) := by
  intro L
  induction L with
  | nil => intro t k b s h; cases h
  | cons rel rest ih =>
    intro t k b s
    rw [restoreFolderLoop]
    by_cases h1 : env.mkdirOk rel.dropLast = true
    · rw [if_pos h1]
      by_cases h2 : env.mklinkOk rel = true
      · rw [if_pos h2]
        exact ih _ _ b s
      · rw [if_neg h2]
        simp
    · rw [if_neg h1]
      simp

theorem restoreFileLoop_no_mismatch (env : RestoreEnv) (bt : Entry) :
    ∀ (T : List Path) (t : Entry) (k : Nat) (b s : String),
      (restoreFileLoop env bt T t k).1 ≠ some (.versionMismatch b s) := by
  intro T
  induction T with
  | nil => intro t k b s h; cases h
  | cons rel rest ih =>
    intro t k b s
    rw [restoreFileLoop]
    by_cases h1 : env.mkdirOk rel.dropLast = true
    · rw [if_pos h1]
      by_cases h2 : env.copyOk rel = true
      · rw [if_pos h2]
        exact ih _ _ b s
      · rw [if_neg h2]
        simp
    · rw [if_neg h1]
      simp

theorem restoreAfterGuard_no_mismatch (env : RestoreEnv) (bt : Entry)
    (code : String) (target : Entry) (b s : String) :
    (restoreAfterGuard env bt code target).1 ≠ .versionMismatch b s := by
  rw [restoreAfterGuard]
  rcases hr1 : restoreFolderLoop env bt (find_voice_files bt code).1 target 0
    with ⟨err1, t1, k1⟩
  match err1 with
  | some st =>
    by_cases hk : k1 = 0
    · simp [hk]
    · have := restoreFolderLoop_no_mismatch env bt
        (find_voice_files bt code).1 target 0 b s
      rw [hr1] at this
      simp only [if_neg hk]
      intro hc
      rw [hc] at this
      exact this rfl
  | none =>
    rcases hr2 : restoreFileLoop env bt (find_voice_files bt code).2 t1 0
      with ⟨err2, t2, k2⟩
    match err2 with
    | some st =>
      by_cases hk : k1 = 0 ∧ k2 = 0
      · simp [hk]
      · have := restoreFileLoop_no_mismatch env bt
          (find_voice_files bt code).2 t1 0 b s
        rw [hr2] at this
        simp only [if_neg hk]
        intro hc
        rw [hc] at this
        exact this rfl
    | none =>
      by_cases hk : 0 < k1 ∨ 0 < k2
      · simp [hk]
      · simp [hk]

/-- C1: with the snapshot present, activation is blocked with
`versionMismatch` exactly when the record's build id is non-empty, an
installation is detected, and the two build ids differ — an empty
recorded id or an absent installation always passes, and no later stage
produces a version mismatch (no override path).  On a mismatch the
target tree is returned unchanged: activation aborts before any link
creation, copy or deletion. -/
theorem restore_version_guard (env : RestoreEnv) (backup : BackupInfo)
    (bt : Entry) (steamBuildId : Option String) (target : Entry) :
    (∀ b s, (restore_files env backup (some bt) steamBuildId target).1 =
        .versionMismatch b s →
      (restore_files env backup (some bt) steamBuildId target).2 = target) ∧
    ((∃ b s, (restore_files env backup (some bt) steamBuildId target).1 =
        .versionMismatch b s) ↔
      (backup.build_id ≠ "" ∧ ∃ sid, steamBuildId = some sid ∧
        backup.build_id ≠ sid)) := by
  rw [restore_files]
  match steamBuildId with
  | none =>
    rw [show check_version_match backup none = none from rfl]
    constructor
    · intro b s h
      exact absurd h (restoreAfterGuard_no_mismatch env bt _ target b s)
    · constructor
      · rintro ⟨b, s, h⟩
        exact absurd h (restoreAfterGuard_no_mismatch env bt _ target b s)
      · rintro ⟨_, sid, hsid, _⟩
        cases hsid
  | some sid =>
    by_cases hguard : backup.build_id ≠ "" ∧ backup.build_id ≠ sid
    · rw [show check_version_match backup (some sid) =
        some (backup.build_id, sid) from by
          rw [check_version_match, if_pos hguard]]
      constructor
      · intro b s _; rfl
      · constructor
        · intro _; exact ⟨hguard.1, sid, rfl, hguard.2⟩
        · intro _; exact ⟨backup.build_id, sid, rfl⟩
    · rw [show check_version_match backup (some sid) = none from by
        rw [check_version_match, if_neg hguard]]
      constructor
      · intro b s h
        exact absurd h (restoreAfterGuard_no_mismatch env bt _ target b s)
      · constructor
        · rintro ⟨b, s, h⟩
          exact absurd h (restoreAfterGuard_no_mismatch env bt _ target b s)
        · rintro ⟨h1, sid', hsid, h2⟩
          cases hsid
          exact absurd ⟨h1, h2⟩ hguard

/-- Witness: a concrete mismatching activation is blocked and changes
nothing. -/
theorem restore_version_guard_witness :
    (restore_files ⟨fun _ => true, fun _ => true, fun _ => true,
        fun _ => true, fun _ => true⟩
      ⟨"en", "100"⟩ (some (.dir [("en", .dir [])])) (some "200")
      (.dir [])).1 = .versionMismatch "100" "200" ∧
    (restore_files ⟨fun _ => true, fun _ => true, fun _ => true,
        fun _ => true, fun _ => true⟩
      ⟨"en", "100"⟩ (some (.dir [("en", .dir [])])) (some "200")
      (.dir [])).2 = .dir [] := by
  have hst : (restore_files ⟨fun _ => true, fun _ => true, fun _ => true,
      fun _ => true, fun _ => true⟩
      ⟨"en", "100"⟩ (some (.dir [("en", .dir [])])) (some "200")
      (.dir [])).1 = .versionMismatch "100" "200" := by
    rw [restore_files]
    rw [show check_version_match ⟨"en", "100"⟩ (some "200") =
      some ("100", "200") from by
        rw [check_version_match]
        rw [if_pos (by refine ⟨?_, ?_⟩ <;> decide)]]
  refine ⟨hst, ?_⟩
  exact (restore_version_guard ⟨fun _ => true, fun _ => true, fun _ => true,
      fun _ => true, fun _ => true⟩
    ⟨"en", "100"⟩ (.dir [("en", .dir [])]) (some "200") (.dir [])).1
    "100" "200" hst

/-- Success flags for the OS effects of `backup_files`: removal of the
old snapshot, `fs::create_dir_all`, `fs_extra::dir::copy`, `fs::copy`,
and the final `fs::write` of the manifest (whose error the source
discards). -/
structure BackupEnv where
  removeOldOk : Bool
  mkdirOk : Path → Bool
  copyDirOk : Path → Bool
  copyFileOk : Path → Bool
  writeInfoOk : Bool

/-- Outcome classification of `backup_files` (the distinct
status-message branches of the source). -/
inductive BackupStatus where
  | notFound : BackupStatus
  | incomplete : BackupStatus
  | removeOldFailed : BackupStatus
  | mkdirFailed (rel : Path) : BackupStatus
  | copyDirFailed (rel : Path) : BackupStatus
  | copyFileFailed (rel : Path) : BackupStatus
  | done (folders tocs : Nat) (buildId : String) : BackupStatus
deriving DecidableEq

mutual
/-- The image of an entry under a recursive copy
(`fs_extra::dir::copy` / `fs::copy`): junction contents are traversed
and written out as ordinary directories. -/
def copyEntry : Entry → Entry
  | .file c => .file c
  | .dir cs => .dir (copyChildren cs)
  | .junction cs => .dir (copyChildren cs)

def copyChildren : List (String × Entry) → List (String × Entry)
  | [] => []
  | (n, e) :: rest => (n, copyEntry e) :: copyChildren rest
end

/-- A relative path rendered as the manifest stores it. -/
def pathToString (p : Path) : String :=
  String.intercalate "\\" p

/-- The manifest text written by `backup_files`. -/
def manifestContent (buildId code : String) (folders tocs : List Path) : String :=
  "build_id=" ++ buildId ++ "\nlang_code=" ++ code ++ "\nfolders=" ++
    String.intercalate ";" (folders.map pathToString) ++ "\ntoc_files=" ++
    String.intercalate ";" (tocs.map pathToString) ++ "\n"

/-- The folder-copy loop of `backup_files`: create the destination's
parent directories under the snapshot (`code :: rel` without its last
component) and copy the source subtree there. -/
def backupFolderLoop (env : BackupEnv) (source : Entry) (code : String) :
    List Path → Entry → Nat → Option BackupStatus × Entry × Nat
  | [], st, k => (none, st, k)
  | rel :: rest, st, k =>
    if env.mkdirOk (code :: rel.dropLast) then
      let st1 := mkdirAll (code :: rel.dropLast) st
      if env.copyDirOk rel then
        let copied := (match getAt rel source with
          | some e => copyEntry e
          | none => Entry.dir [])
        backupFolderLoop env source code rest
          (setAt (code :: rel) copied st1) (k + 1)
      else (some (.copyDirFailed rel), st1, k)
    else (some (.mkdirFailed rel), st, k)

/-- The control-file-copy loop of `backup_files`. -/
def backupFileLoop (env : BackupEnv) (source : Entry) (code : String) :
    List Path → Entry → Nat → Option BackupStatus × Entry × Nat
  | [], st, k => (none, st, k)
  | rel :: rest, st, k =>
    if env.mkdirOk (code :: rel.dropLast) then
      let st1 := mkdirAll (code :: rel.dropLast) st
      if env.copyFileOk rel then
        let copied := (match getAt rel source with
          | some e => e
          | none => Entry.file "")
        backupFileLoop env source code rest
          (setAt (code :: rel) copied st1) (k + 1)
      else (some (.copyFileFailed rel), st1, k)
    else (some (.mkdirFailed rel), st, k)

/-- The phase of `backup_files` after the old snapshot has been cleared:
copy folders, then control files, then write the manifest, whose write
error is discarded (`let _ = fs::write(...)`), so the success status and
counts are reported either way. -/
def backupCopyPhase (env : BackupEnv) (source store : Entry)
    (steamBuildId : Option String) (lang_code : String)
    (found : List Path × List Path) : BackupStatus × Entry :=
  let r1 := backupFolderLoop env source lang_code found.1 store 0
  match r1.1 with
  | some st => (st, r1.2.1)
  | none =>
    let r2 := backupFileLoop env source lang_code found.2 r1.2.1 0
    match r2.1 with
    | some st => (st, r2.2.1)
    | none =>
      let buildId := steamBuildId.getD ""
      let content := manifestContent buildId lang_code found.1 found.2
      let store' := if env.writeInfoOk then
          setAt [lang_code, "backup_info.txt"] (Entry.file content) r2.2.1
        else r2.2.1
      (.done r1.2.2 r2.2.2 buildId, store')

/-- Models `backup_files` (capture) from the point where the source
folder exists: discover, reject empty and folder-less results, delete
any pre-existing snapshot directory, then copy and write the manifest. -/
def backup_files (env : BackupEnv) (source store : Entry)
    (steamBuildId : Option String) (lang_code : String) :
    BackupStatus × Entry :=
  let found := find_voice_files source lang_code
  if found.1.isEmpty && found.2.isEmpty then (.notFound, store)
  else if found.1.isEmpty then (.incomplete, store)
  else
    match getAt [lang_code] store with
    | some _ =>
      if env.removeOldOk then
        backupCopyPhase env source (removeAt [lang_code] store)
          steamBuildId lang_code found
      else (.removeOldFailed, store)
    | none => backupCopyPhase env source store steamBuildId lang_code found

/-- C2: a capture that finds at least one control file but no language
folder fails with `incomplete` and leaves the backup store byte-for-byte
unchanged (no snapshot directory is created and a pre-existing one is
untouched); more generally the store changes only when at least one
folder was discovered. -/
theorem backup_incomplete_writes_nothing (env : BackupEnv)
    (source store : Entry) (steamBuildId : Option String) (code : String) :
    ((find_voice_files source code).1 = [] →
      (find_voice_files source code).2 ≠ [] →
      backup_files env source store steamBuildId code = (.incomplete, store)) ∧
    (∀ st store', backup_files env source store steamBuildId code = (st, store') →
      store' ≠ store → (find_voice_files source code).1 ≠ []) := by
  constructor
  · intro h1 h2
    rw [backup_files]
    rw [if_neg (by simp [h1, h2])]
    rw [if_pos (by simp [h1])]
  · intro st store' hrun hne
    intro hf
    by_cases ht : (find_voice_files source code).2 = []
    · rw [backup_files, if_pos (by simp [hf, ht])] at hrun
      cases hrun
      exact hne rfl
    · rw [backup_files, if_neg (by simp [hf, ht]), if_pos (by simp [hf])] at hrun
      cases hrun
      exact hne rfl

/-- Witness: capturing from a root holding only `en.toc` fails with
`incomplete` and leaves a pre-existing store unchanged. -/
theorem backup_incomplete_writes_nothing_witness :
    find_voice_files (.dir [("en.toc", .file "t")]) "en" = ([], [["en.toc"]]) ∧
    backup_files ⟨true, fun _ => true, fun _ => true, fun _ => true, true⟩
      (.dir [("en.toc", .file "t")])
      (.dir [("en", .dir [("old", .file "o")])]) (some "100") "en" =
      (.incomplete, .dir [("en", .dir [("old", .file "o")])]) := by
  have hscan : find_voice_files (.dir [("en.toc", .file "t")]) "en" =
      ([], [["en.toc"]]) := by
    simp [find_voice_files, findChildren]
  refine ⟨hscan, ?_⟩
  exact (backup_incomplete_writes_nothing
    ⟨true, fun _ => true, fun _ => true, fun _ => true, true⟩
    (.dir [("en.toc", .file "t")])
    (.dir [("en", .dir [("old", .file "o")])]) (some "100") "en").1
    (by rw [hscan]) (by rw [hscan]; simp)

/-- No file sits at this path. -/
def noFileAt (q : Path) (st : Entry) : Prop :=
  ∀ c, getAt q st ≠ some (Entry.file c)

/-- A directory-like entry sits at this path. -/
def dirLikeAt (q : Path) (st : Entry) : Prop :=
  ∃ e, getAt q st = some e ∧ e.isDirLike = true

theorem setAt_nilPath (v e : Entry) : setAt [] v e = v := by simp [setAt]

theorem setAt_file (p : Path) (v : Entry) (c : String) (h : p ≠ []) :
    setAt p v (.file c) = .file c := by
  match p with
  | [n] => simp [setAt]
  | n :: m :: q => simp [setAt]

theorem setAt_dir_single (n : String) (v : Entry) (cs : List (String × Entry)) :
    setAt [n] v (.dir cs) = .dir (setChild n v cs) := by simp [setAt]

theorem setAt_junction_single (n : String) (v : Entry)
    (cs : List (String × Entry)) :
    setAt [n] v (.junction cs) = .junction (setChild n v cs) := by simp [setAt]

theorem setAt_dir_cons (n m : String) (q : Path) (v : Entry)
    (cs : List (String × Entry)) :
    setAt (n :: m :: q) v (.dir cs) =
      .dir (updateChildren n (fun c => setAt (m :: q) v c) cs) := by
  simp [setAt]

theorem setAt_junction_cons (n m : String) (q : Path) (v : Entry)
    (cs : List (String × Entry)) :
    setAt (n :: m :: q) v (.junction cs) =
      .junction (updateChildren n (fun c => setAt (m :: q) v c) cs) := by
  simp [setAt]

theorem mkdirAll_nilPath (e : Entry) : mkdirAll [] e = e := by simp [mkdirAll]

theorem mkdirAll_file (n : String) (p : Path) (c : String) :
    mkdirAll (n :: p) (.file c) = .file c := by simp [mkdirAll]

theorem mkdirAll_dir_found (n : String) (p : Path) (cs : List (String × Entry))
    (c : Entry) (h : lookupChild n cs = some c) :
    mkdirAll (n :: p) (.dir cs) =
      .dir (updateChildren n (fun c' => mkdirAll p c') cs) := by
  rw [mkdirAll, h]

theorem mkdirAll_dir_missing (n : String) (p : Path) (cs : List (String × Entry))
    (h : lookupChild n cs = none) :
    mkdirAll (n :: p) (.dir cs) = .dir (cs ++ [(n, mkdirAll p (.dir []))]) := by
  rw [mkdirAll, h]

theorem mkdirAll_junction_found (n : String) (p : Path)
    (cs : List (String × Entry)) (c : Entry) (h : lookupChild n cs = some c) :
    mkdirAll (n :: p) (.junction cs) =
      .junction (updateChildren n (fun c' => mkdirAll p c') cs) := by
  rw [mkdirAll, h]

theorem mkdirAll_junction_missing (n : String) (p : Path)
    (cs : List (String × Entry)) (h : lookupChild n cs = none) :
    mkdirAll (n :: p) (.junction cs) =
      .junction (cs ++ [(n, mkdirAll p (.dir []))]) := by
  rw [mkdirAll, h]

theorem lookupChild_setChild_self (n : String) (v : Entry)
    (cs : List (String × Entry)) :
    lookupChild n (setChild n v cs) = some v := by
  induction cs with
  | nil => simp [setChild]
  | cons hd tl ih =>
    obtain ⟨k, e⟩ := hd
    rw [setChild]
    by_cases hk : k = n
    · rw [if_pos hk, lookupChild_cons, if_pos hk]
    · rw [if_neg hk, lookupChild_cons, if_neg hk, ih]

theorem lookupChild_setChild_ne {m n : String} (h : m ≠ n) (v : Entry)
    (cs : List (String × Entry)) :
    lookupChild m (setChild n v cs) = lookupChild m cs := by
  induction cs with
  | nil =>
    rw [setChild, lookupChild_cons, if_neg (Ne.symm h)]
  | cons hd tl ih =>
    obtain ⟨k, e⟩ := hd
    rw [setChild]
    by_cases hk : k = n
    · subst hk
      rw [if_pos rfl, lookupChild_cons, lookupChild_cons,
        if_neg (fun hh : k = m => h (hh ▸ rfl)), if_neg (fun hh : k = m => h (hh ▸ rfl))]
    · rw [if_neg hk, lookupChild_cons, lookupChild_cons]
      by_cases hm : k = m
      · rw [if_pos hm, if_pos hm]
      · rw [if_neg hm, if_neg hm, ih]

theorem lookupChild_append_one_self (n : String) (x : Entry)
    (cs : List (String × Entry)) (h : lookupChild n cs = none) :
    lookupChild n (cs ++ [(n, x)]) = some x := by
  induction cs with
  | nil => simp [lookupChild]
  | cons hd tl ih =>
    obtain ⟨k, e⟩ := hd
    rw [lookupChild_cons] at h
    by_cases hk : k = n
    · rw [if_pos hk] at h; cases h
    · rw [if_neg hk] at h
      rw [List.cons_append, lookupChild_cons, if_neg hk, ih h]

theorem lookupChild_append_one_ne {m n : String} (h : m ≠ n) (x : Entry)
    (cs : List (String × Entry)) :
    lookupChild m (cs ++ [(n, x)]) = lookupChild m cs := by
  induction cs with
  | nil =>
    simp only [List.nil_append, lookupChild_cons, lookupChild_nil,
      if_neg (Ne.symm h)]
  | cons hd tl ih =>
    obtain ⟨k, e⟩ := hd
    rw [List.cons_append, lookupChild_cons, lookupChild_cons]
    by_cases hm : k = m
    · rw [if_pos hm, if_pos hm]
    · rw [if_neg hm, if_neg hm, ih]

theorem getAt_of_head_none {n : String} {st : Entry}
    (h : getAt [n] st = none) (p : Path) : getAt (n :: p) st = none := by
  match st with
  | .file c => rfl
  | .dir cs =>
    rw [getAt_dir_cons]
    rw [getAt_dir_cons] at h
    match hl : lookupChild n cs with
    | some c => rw [hl] at h; simp [getAt] at h
    | none => rfl
  | .junction cs =>
    rw [getAt_junction_cons]
    rw [getAt_junction_cons] at h
    match hl : lookupChild n cs with
    | some c => rw [hl] at h; simp [getAt] at h
    | none => rfl

theorem noFile_emptyDir (q : Path) : noFileAt q (.dir []) := by
  intro c
  match q with
  | [] => simp [getAt]
  | n :: p =>
    rw [getAt_dir_cons, lookupChild_nil]
    simp

/-- Writing at `r` keeps `q` file-free when the value written at `q`
itself (if `r = q`) is not a file and `q` does not reach into the
written subtree. -/
theorem noFile_setAt :
    ∀ (r : Path) (v st : Entry) (q : Path), noFileAt q st →
      (r = q → ∀ c, v ≠ .file c) →
      (∀ u, u ≠ [] → q ≠ r ++ u) →
      noFileAt q (setAt r v st) := by
  intro r
  induction r with
  | nil =>
    intro v st q hq hv hu c
    rw [setAt_nilPath]
    match q with
    | [] =>
      intro hc
      simp only [getAt, Option.some.injEq] at hc
      exact hv rfl c hc
    | x :: xs => exact absurd rfl (hu (x :: xs) (by simp))
  | cons n r' ih =>
    intro v st q hq hv hu c
    match st with
    | .file c' => rw [setAt_file _ _ _ (by simp)]; exact hq c
    | .dir cs =>
      match r' with
      | [] =>
        rw [setAt_dir_single]
        match q with
        | [] => rw [show getAt [] (Entry.dir (setChild n v cs)) =
            some (.dir (setChild n v cs)) from rfl]; simp
        | m :: q' =>
          rw [getAt_dir_cons]
          by_cases hmn : m = n
          · subst hmn
            rw [lookupChild_setChild_self]
            match q' with
            | [] =>
              intro hc
              simp only [getAt] at hc
              cases hc
              exact hv rfl c rfl
            | x :: xs => exact absurd rfl (hu (x :: xs) (by simp))
          · rw [lookupChild_setChild_ne hmn]
            have := hq c
            rw [getAt_dir_cons] at this
            exact this
      | w :: r'' =>
        rw [setAt_dir_cons]
        match q with
        | [] => rw [show getAt [] (Entry.dir _) = some (.dir _) from rfl]; simp
        | m :: q' =>
          rw [getAt_dir_cons]
          by_cases hmn : m = n
          · subst hmn
            rw [lookupChild_update_eq]
            match hl : lookupChild m cs with
            | none => simp
            | some c0 =>
              rw [Option.map_some']
              have hq' : noFileAt q' c0 := by
                intro c1 hc1
                have := hq c1
                rw [getAt_dir_cons, hl] at this
                exact this hc1
              have hv' : w :: r'' = q' → ∀ c1, v ≠ .file c1 := by
                intro heq
                exact hv (by rw [heq])
              have hu' : ∀ u, u ≠ [] → q' ≠ (w :: r'') ++ u := by
                intro u hun hequ
                exact hu u hun (by rw [List.cons_append, hequ])
              exact ih v c0 q' hq' hv' hu' c
          · rw [lookupChild_update_ne hmn]
            have := hq c
            rw [getAt_dir_cons] at this
            exact this
    | .junction cs =>
      match r' with
      | [] =>
        rw [setAt_junction_single]
        match q with
        | [] => rw [show getAt [] (Entry.junction (setChild n v cs)) =
            some (.junction (setChild n v cs)) from rfl]; simp
        | m :: q' =>
          rw [getAt_junction_cons]
          by_cases hmn : m = n
          · subst hmn
            rw [lookupChild_setChild_self]
            match q' with
            | [] =>
              intro hc
              simp only [getAt] at hc
              cases hc
              exact hv rfl c rfl
            | x :: xs => exact absurd rfl (hu (x :: xs) (by simp))
          · rw [lookupChild_setChild_ne hmn]
            have := hq c
            rw [getAt_junction_cons] at this
            exact this
      | w :: r'' =>
        rw [setAt_junction_cons]
        match q with
        | [] => rw [show getAt [] (Entry.junction _) = some (.junction _) from rfl]; simp
        | m :: q' =>
          rw [getAt_junction_cons]
          by_cases hmn : m = n
          · subst hmn
            rw [lookupChild_update_eq]
            match hl : lookupChild m cs with
            | none => simp
            | some c0 =>
              rw [Option.map_some']
              have hq' : noFileAt q' c0 := by
                intro c1 hc1
                have := hq c1
                rw [getAt_junction_cons, hl] at this
                exact this hc1
              have hv' : w :: r'' = q' → ∀ c1, v ≠ .file c1 := by
                intro heq
                exact hv (by rw [heq])
              have hu' : ∀ u, u ≠ [] → q' ≠ (w :: r'') ++ u := by
                intro u hun hequ
                exact hu u hun (by rw [List.cons_append, hequ])
              exact ih v c0 q' hq' hv' hu' c
          · rw [lookupChild_update_ne hmn]
            have := hq c
            rw [getAt_junction_cons] at this
            exact this

/-- Creating directories never puts a file anywhere. -/
theorem noFile_mkdirAll :
    ∀ (p : Path) (st : Entry) (q : Path), noFileAt q st →
      noFileAt q (mkdirAll p st) := by
  intro p
  induction p with
  | nil =>
    intro st q hq
    rw [mkdirAll_nilPath]
    exact hq
  | cons n p' ih =>
    intro st q hq c
    match st with
    | .file c' => rw [mkdirAll_file]; exact hq c
    | .dir cs =>
      match hl : lookupChild n cs with
      | some c0 =>
        rw [mkdirAll_dir_found n p' cs c0 hl]
        match q with
        | [] => rw [show getAt [] (Entry.dir _) = some (.dir _) from rfl]; simp
        | m :: q' =>
          rw [getAt_dir_cons]
          by_cases hmn : m = n
          · subst hmn
            rw [lookupChild_update_eq, hl, Option.map_some']
            have hq' : noFileAt q' c0 := by
              intro c1 hc1
              have := hq c1
              rw [getAt_dir_cons, hl] at this
              exact this hc1
            exact ih c0 q' hq' c
          · rw [lookupChild_update_ne hmn]
            have := hq c
            rw [getAt_dir_cons] at this
            exact this
      | none =>
        rw [mkdirAll_dir_missing n p' cs hl]
        match q with
        | [] => rw [show getAt [] (Entry.dir _) = some (.dir _) from rfl]; simp
        | m :: q' =>
          rw [getAt_dir_cons]
          by_cases hmn : m = n
          · subst hmn
            rw [lookupChild_append_one_self m _ cs hl]
            exact ih (.dir []) q' (noFile_emptyDir q') c
          · rw [lookupChild_append_one_ne hmn]
            have := hq c
            rw [getAt_dir_cons] at this
            exact this
    | .junction cs =>
      match hl : lookupChild n cs with
      | some c0 =>
        rw [mkdirAll_junction_found n p' cs c0 hl]
        match q with
        | [] => rw [show getAt [] (Entry.junction _) = some (.junction _) from rfl]; simp
        | m :: q' =>
          rw [getAt_junction_cons]
          by_cases hmn : m = n
          · subst hmn
            rw [lookupChild_update_eq, hl, Option.map_some']
            have hq' : noFileAt q' c0 := by
              intro c1 hc1
              have := hq c1
              rw [getAt_junction_cons, hl] at this
              exact this hc1
            exact ih c0 q' hq' c
          · rw [lookupChild_update_ne hmn]
            have := hq c
            rw [getAt_junction_cons] at this
            exact this
      | none =>
        rw [mkdirAll_junction_missing n p' cs hl]
        match q with
        | [] => rw [show getAt [] (Entry.junction _) = some (.junction _) from rfl]; simp
        | m :: q' =>
          rw [getAt_junction_cons]
          by_cases hmn : m = n
          · subst hmn
            rw [lookupChild_append_one_self m _ cs hl]
            exact ih (.dir []) q' (noFile_emptyDir q') c
          · rw [lookupChild_append_one_ne hmn]
            have := hq c
            rw [getAt_junction_cons] at this
            exact this

/-- A reported control-file path ends in one of the acceptable
control-file names. -/
theorem specToc_last {fns tns : List String} :
    ∀ (q : Path) (cs : List (String × Entry)), specToc fns tns cs q = true →
      ∃ n, q.getLast? = some n ∧ tns.contains n = true := by
  intro q
  induction q with
  | nil => intro cs h; simp at h
  | cons n q' ih =>
    intro cs h
    match q' with
    | [] =>
      obtain ⟨hc, _⟩ := specToc_single_inv h
      exact ⟨n, rfl, hc⟩
    | m :: p =>
      obtain ⟨_, cs', _, hs⟩ := specToc_cons2_inv h
      obtain ⟨w, hw, hc⟩ := ih cs' hs
      exact ⟨w, by rw [List.getLast?_cons_cons]; exact hw, hc⟩

theorem getAt_single_dir (n : String) (cs : List (String × Entry)) :
    getAt [n] (.dir cs) = lookupChild n cs := by
  rw [getAt_dir_cons]
  match hl : lookupChild n cs with
  | some c => rfl
  | none => rfl

theorem getAt_single_junction (n : String) (cs : List (String × Entry)) :
    getAt [n] (.junction cs) = lookupChild n cs := by
  rw [getAt_junction_cons]
  match hl : lookupChild n cs with
  | some c => rfl
  | none => rfl

/-- Writing below the root never changes the root's kind. -/
theorem setAt_cons_isDirLike (n : String) (p : Path) (v e : Entry) :
    (setAt (n :: p) v e).isDirLike = e.isDirLike := by
  match e, p with
  | .file c, p => rw [setAt_file (n :: p) v c (by simp)]
  | .dir cs, [] => rw [setAt_dir_single]; rfl
  | .dir cs, m :: q => rw [setAt_dir_cons]; rfl
  | .junction cs, [] => rw [setAt_junction_single]; rfl
  | .junction cs, m :: q => rw [setAt_junction_cons]; rfl

/-- Creating directories never changes the root's kind. -/
theorem mkdirAll_isDirLike (p : Path) (e : Entry) :
    (mkdirAll p e).isDirLike = e.isDirLike := by
  match p, e with
  | [], e => rw [mkdirAll_nilPath]
  | n :: q, .file c => rw [mkdirAll_file]
  | n :: q, .dir cs =>
    match hl : lookupChild n cs with
    | some c0 => rw [mkdirAll_dir_found n q cs c0 hl]; rfl
    | none => rw [mkdirAll_dir_missing n q cs hl]; rfl
  | n :: q, .junction cs =>
    match hl : lookupChild n cs with
    | some c0 => rw [mkdirAll_junction_found n q cs c0 hl]; rfl
    | none => rw [mkdirAll_junction_missing n q cs hl]; rfl

theorem mkdirAll_dir_shape (p : Path) (cs : List (String × Entry)) :
    ∃ cs', mkdirAll p (.dir cs) = .dir cs' := by
  match p with
  | [] => exact ⟨cs, mkdirAll_nilPath _⟩
  | n :: q =>
    match hl : lookupChild n cs with
    | some c0 => exact ⟨_, mkdirAll_dir_found n q cs c0 hl⟩
    | none => exact ⟨_, mkdirAll_dir_missing n q cs hl⟩

theorem setAt_cons_dir_shape (n : String) (p : Path) (v : Entry)
    (cs : List (String × Entry)) :
    ∃ cs', setAt (n :: p) v (.dir cs) = .dir cs' := by
  match p with
  | [] => exact ⟨_, setAt_dir_single n v cs⟩
  | m :: q => exact ⟨_, setAt_dir_cons n m q v cs⟩

/-- `create_dir_all` starting at the path's first component leaves a
directory-like entry under that first name, provided that name was
previously absent or already directory-like. -/
theorem dirLike_mkdirAll_head (n : String) (p : Path)
    (cs : List (String × Entry))
    (h : getAt [n] (.dir cs) = none ∨ dirLikeAt [n] (.dir cs)) :
    dirLikeAt [n] (mkdirAll (n :: p) (.dir cs)) := by
  match hl : lookupChild n cs with
  | none =>
    rw [mkdirAll_dir_missing n p cs hl]
    refine ⟨mkdirAll p (.dir []), ?_, ?_⟩
    · rw [getAt_single_dir, lookupChild_append_one_self n _ cs hl]
    · rw [mkdirAll_isDirLike]
      rfl
  | some c0 =>
    have hc0 : c0.isDirLike = true := by
      rcases h with h | h
      · rw [getAt_single_dir, hl] at h
        cases h
      · obtain ⟨e, hg, hd⟩ := h
        rw [getAt_single_dir, hl] at hg
        cases hg
        exact hd
    rw [mkdirAll_dir_found n p cs c0 hl]
    refine ⟨mkdirAll p c0, ?_, ?_⟩
    · rw [getAt_single_dir, lookupChild_update_eq, hl, Option.map_some']
    · rw [mkdirAll_isDirLike]
      exact hc0

/-- Writing strictly below `n` keeps the entry under `n`
directory-like. -/
theorem dirLike_setAt_head (n : String) (rel : Path) (v st : Entry)
    (h1 : rel ≠ []) (hdl : dirLikeAt [n] st) :
    dirLikeAt [n] (setAt (n :: rel) v st) := by
  obtain ⟨e, hg, hd⟩ := hdl
  obtain ⟨w, r'', rfl⟩ : ∃ w r'', rel = w :: r'' := by
    match rel with
    | w :: r'' => exact ⟨w, r'', rfl⟩
  match st with
  | .file c => simp [getAt] at hg
  | .dir cs =>
    rw [getAt_single_dir] at hg
    rw [setAt_dir_cons]
    refine ⟨setAt (w :: r'') v e, ?_, ?_⟩
    · rw [getAt_single_dir, lookupChild_update_eq, hg, Option.map_some']
    · rw [setAt_cons_isDirLike]
      exact hd
  | .junction cs =>
    rw [getAt_single_junction] at hg
    rw [setAt_junction_cons]
    refine ⟨setAt (w :: r'') v e, ?_, ?_⟩
    · rw [getAt_single_junction, lookupChild_update_eq, hg, Option.map_some']
    · rw [setAt_cons_isDirLike]
      exact hd

/-- Invariant carried through the copy loops of `backup_files`: the
store stays a directory, no file ever sits at the snapshot's manifest
path, and the snapshot directory is absent or directory-like. -/
def BInv (code : String) (st : Entry) : Prop :=
  (∃ cs, st = Entry.dir cs) ∧ noFileAt [code, "backup_info.txt"] st ∧
    (getAt [code] st = none ∨ dirLikeAt [code] st)

/-- One copy step (`create_dir_all` of the destination parent, then the
copy itself) preserves the loop invariant and leaves the snapshot
directory in place. -/
theorem backupStep_inv (code : String) (rel : Path) (v st : Entry)
    (h1 : rel ≠ []) (h2 : rel ≠ ["backup_info.txt"]) (hinv : BInv code st) :
    BInv code (setAt (code :: rel) v (mkdirAll (code :: rel.dropLast) st)) ∧
    dirLikeAt [code] (setAt (code :: rel) v (mkdirAll (code :: rel.dropLast) st)) := by
  obtain ⟨⟨cs, rfl⟩, hnf, hdl⟩ := hinv
  obtain ⟨cs1, hshape1⟩ := mkdirAll_dir_shape (code :: rel.dropLast) cs
  have hnf1 : noFileAt [code, "backup_info.txt"]
      (mkdirAll (code :: rel.dropLast) (.dir cs)) :=
    noFile_mkdirAll _ _ _ hnf
  have hdl1 : dirLikeAt [code] (mkdirAll (code :: rel.dropLast) (.dir cs)) :=
    dirLike_mkdirAll_head code rel.dropLast cs hdl
  have hnf2 : noFileAt [code, "backup_info.txt"]
      (setAt (code :: rel) v (mkdirAll (code :: rel.dropLast) (.dir cs))) := by
    refine noFile_setAt (code :: rel) v _ _ hnf1 ?_ ?_
    · intro heq
      exfalso
      apply h2
      exact (List.cons.injEq _ _ _ _ ▸ heq).2
    · intro u hu hequ
      have hlen := congrArg List.length hequ
      simp at hlen
      have hr : 0 < rel.length := List.length_pos.mpr h1
      have hu' : 0 < u.length := List.length_pos.mpr hu
      omega
  have hdl2 : dirLikeAt [code]
      (setAt (code :: rel) v (mkdirAll (code :: rel.dropLast) (.dir cs))) :=
    dirLike_setAt_head code rel v _ h1 hdl1
  refine ⟨⟨?_, hnf2, Or.inr hdl2⟩, hdl2⟩
  rw [hshape1]
  exact setAt_cons_dir_shape code rel v cs1

/-- The folder-copy loop of `backup_files` under fully succeeding
directory creation and copying: it never fails, copies one folder per
discovered path, and preserves the manifest-free snapshot invariant. -/
theorem backupFolderLoop_facts (env : BackupEnv) (source : Entry)
    (code : String) (hmk : ∀ p, env.mkdirOk p = true)
    (hcd : ∀ p, env.copyDirOk p = true) :
    ∀ (L : List Path) (st : Entry) (k : Nat),
      (∀ rel ∈ L, rel ≠ [] ∧ rel ≠ ["backup_info.txt"]) →
      BInv code st →
      (backupFolderLoop env source code L st k).1 = none ∧
      (backupFolderLoop env source code L st k).2.2 = k + L.length ∧
      BInv code (backupFolderLoop env source code L st k).2.1 ∧
      ((dirLikeAt [code] st ∨ L ≠ []) →
        dirLikeAt [code] (backupFolderLoop env source code L st k).2.1) := by
  intro L
  induction L with
  | nil =>
    intro st k _ hinv
    exact ⟨rfl, rfl, hinv, fun h => h.resolve_right (fun hh => hh rfl)⟩
  | cons rel rest ih =>
    intro st k hall hinv
    obtain ⟨hr1, hr2⟩ := hall rel (List.mem_cons_self _ _)
    have hrest : ∀ r ∈ rest, r ≠ [] ∧ r ≠ ["backup_info.txt"] :=
      fun r hr => hall r (List.mem_cons_of_mem _ hr)
    obtain ⟨hinv', hdl'⟩ := backupStep_inv code rel
      (match getAt rel source with
        | some e => copyEntry e
        | none => Entry.dir []) st hr1 hr2 hinv
    have heq : backupFolderLoop env source code (rel :: rest) st k =
        backupFolderLoop env source code rest
          (setAt (code :: rel)
            (match getAt rel source with
              | some e => copyEntry e
              | none => Entry.dir [])
            (mkdirAll (code :: rel.dropLast) st)) (k + 1) := by
      rw [backupFolderLoop, if_pos (hmk _), if_pos (hcd _)]
    rw [heq]
    obtain ⟨c1, c2, c3, c4⟩ := ih _ (k + 1) hrest hinv'
    refine ⟨c1, by rw [c2]; simp; omega, c3, fun _ => c4 (Or.inl hdl')⟩

/-- The control-file-copy loop of `backup_files`, with the same
invariant as the folder loop. -/
theorem backupFileLoop_facts (env : BackupEnv) (source : Entry)
    (code : String) (hmk : ∀ p, env.mkdirOk p = true)
    (hcf : ∀ p, env.copyFileOk p = true) :
    ∀ (L : List Path) (st : Entry) (k : Nat),
      (∀ rel ∈ L, rel ≠ [] ∧ rel ≠ ["backup_info.txt"]) →
      BInv code st →
      (backupFileLoop env source code L st k).1 = none ∧
      (backupFileLoop env source code L st k).2.2 = k + L.length ∧
      BInv code (backupFileLoop env source code L st k).2.1 ∧
      ((dirLikeAt [code] st ∨ L ≠ []) →
        dirLikeAt [code] (backupFileLoop env source code L st k).2.1) := by
  intro L
  induction L with
  | nil =>
    intro st k _ hinv
    exact ⟨rfl, rfl, hinv, fun h => h.resolve_right (fun hh => hh rfl)⟩
  | cons rel rest ih =>
    intro st k hall hinv
    obtain ⟨hr1, hr2⟩ := hall rel (List.mem_cons_self _ _)
    have hrest : ∀ r ∈ rest, r ≠ [] ∧ r ≠ ["backup_info.txt"] :=
      fun r hr => hall r (List.mem_cons_of_mem _ hr)
    obtain ⟨hinv', hdl'⟩ := backupStep_inv code rel
      (match getAt rel source with
        | some e => e
        | none => Entry.file "") st hr1 hr2 hinv
    have heq : backupFileLoop env source code (rel :: rest) st k =
        backupFileLoop env source code rest
          (setAt (code :: rel)
            (match getAt rel source with
              | some e => e
              | none => Entry.file "")
            (mkdirAll (code :: rel.dropLast) st)) (k + 1) := by
      rw [backupFileLoop, if_pos (hmk _), if_pos (hcf _)]
    rw [heq]
    obtain ⟨c1, c2, c3, c4⟩ := ih _ (k + 1) hrest hinv'
    refine ⟨c1, by rw [c2]; simp; omega, c3, fun _ => c4 (Or.inl hdl')⟩

/-- A snapshot directory with no file at its manifest name yields the
empty build id when listed. -/
theorem snapshotBuildId_of_noFile (code : String)
    (cs : List (String × Entry)) (e : Entry)
    (hl : lookupChild code cs = some e)
    (hnf : noFileAt [code, "backup_info.txt"] (.dir cs)) :
    snapshotBuildId e = "" := by
  have hg : ∀ c, getAt ["backup_info.txt"] e ≠ some (.file c) := by
    intro c hc
    apply hnf c
    rw [getAt_dir_cons, hl]
    exact hc
  match e with
  | .file c => rfl
  | .dir ds =>
    match hb : lookupChild "backup_info.txt" ds with
    | some (.file content) =>
      exact absurd (by rw [getAt_single_dir, hb]) (hg content)
    | some (.dir x) => simp [snapshotBuildId, Entry.childrenOf, hb]
    | some (.junction x) => simp [snapshotBuildId, Entry.childrenOf, hb]
    | none => simp [snapshotBuildId, Entry.childrenOf, hb]
  | .junction ds =>
    match hb : lookupChild "backup_info.txt" ds with
    | some (.file content) =>
      exact absurd (by rw [getAt_single_junction, hb]) (hg content)
    | some (.dir x) => simp [snapshotBuildId, Entry.childrenOf, hb]
    | some (.junction x) => simp [snapshotBuildId, Entry.childrenOf, hb]
    | none => simp [snapshotBuildId, Entry.childrenOf, hb]

/-- C10: when discovery found at least one folder and every directory
creation and copy succeeds but writing the snapshot manifest
`backup_info.txt` fails, capture still reports `done` with the
discovered folder and file counts and the current build id (the
manifest-write error is discarded); the resulting snapshot is then
listed with an empty build id, and the version guard accepts that record
against every detected installation. -/
theorem backup_manifest_write_failure (env : BackupEnv)
    (source store : Entry) (sid code : String)
    (hwf_src : Wf source) (hwf_store : Wf store)
    (hstore : ∃ cs, store = Entry.dir cs)
    (hro : env.removeOldOk = true)
    (hmk : ∀ p, env.mkdirOk p = true)
    (hcd : ∀ p, env.copyDirOk p = true)
    (hcf : ∀ p, env.copyFileOk p = true)
    (hwi : env.writeInfoOk = false)
    (hne : (find_voice_files source code).1 ≠ [])
    (hcode : code ∈ lang_codes) :
    ∃ store',
      backup_files env source store (some sid) code =
        (.done (find_voice_files source code).1.length
          (find_voice_files source code).2.length sid, store') ∧
      (⟨code, ""⟩ : BackupInfo) ∈ refresh_backups (some store') ∧
      (∀ s', check_version_match ⟨code, ""⟩ s' = none) := by
  have hbi : code ≠ "backup_info.txt" ∧ "vo" ++ code ≠ "backup_info.txt" ∧
      code ++ ".toc" ≠ "backup_info.txt" ∧
      "vo" ++ code ++ ".toc" ≠ "backup_info.txt" := by
    have h : code = "en" ∨ code = "ja" ∨ code = "cn" ∨ code = "de" ∨
        code = "fr" ∨ code = "es" ∨ code = "ru" ∨ code = "ko" := by
      simpa [lang_codes] using hcode
    rcases h with rfl | rfl | rfl | rfl | rfl | rfl | rfl | rfl <;>
      exact ⟨by decide, by decide, by decide, by decide⟩
  have hfold : ∀ rel ∈ (find_voice_files source code).1,
      rel ≠ [] ∧ rel ≠ ["backup_info.txt"] := by
    intro rel hrel
    rw [mem_find_folders_iff hwf_src] at hrel
    refine ⟨specFolder_ne_nil hrel, ?_⟩
    intro hrel2
    subst hrel2
    obtain ⟨w, hw, hc⟩ := specFolder_last _ _ hrel
    simp only [List.getLast?_singleton, Option.some.injEq] at hw
    subst hw
    simp at hc
    rcases hc with hc | hc
    · exact hbi.1 hc.symm
    · exact hbi.2.1 hc.symm
  have htoc : ∀ rel ∈ (find_voice_files source code).2,
      rel ≠ [] ∧ rel ≠ ["backup_info.txt"] := by
    intro rel hrel
    rw [mem_find_tocs_iff hwf_src] at hrel
    refine ⟨specToc_ne_nil hrel, ?_⟩
    intro hrel2
    subst hrel2
    obtain ⟨w, hw, hc⟩ := specToc_last _ _ hrel
    simp only [List.getLast?_singleton, Option.some.injEq] at hw
    subst hw
    simp at hc
    rcases hc with hc | hc
    · exact hbi.2.2.1 hc.symm
    · exact hbi.2.2.2 hc.symm
  have hie : (find_voice_files source code).1.isEmpty = false := by
    match hfv : (find_voice_files source code).1 with
    | [] => exact absurd hfv hne
    | a :: as => rfl
  have hguard : ∀ s', check_version_match (⟨code, ""⟩ : BackupInfo) s' = none := by
    intro s'
    match s' with
    | none => rfl
    | some sid' => simp [check_version_match]
  have hfinal : ∀ st', BInv code st' → dirLikeAt [code] st' →
      (⟨code, ""⟩ : BackupInfo) ∈ refresh_backups (some st') := by
    intro st' hinv' hdl'
    obtain ⟨⟨cs', rfl⟩, hnf', _⟩ := hinv'
    obtain ⟨e, hge, hde⟩ := hdl'
    rw [getAt_single_dir] at hge
    rw [refresh_mem_iff]
    refine ⟨e, ?_, hde, hcode, ?_⟩
    · exact lookupChild_mem hge
    · exact (snapshotBuildId_of_noFile code cs' e hge hnf').symm
  have hphase : ∀ st0, BInv code st0 →
      ∃ store', backupCopyPhase env source st0 (some sid) code
          (find_voice_files source code) =
        (.done (find_voice_files source code).1.length
          (find_voice_files source code).2.length sid, store') ∧
        BInv code store' ∧ dirLikeAt [code] store' := by
    intro st0 hinv0
    obtain ⟨f1, f2, f3, f4⟩ := backupFolderLoop_facts env source code hmk hcd
      (find_voice_files source code).1 st0 0 hfold hinv0
    obtain ⟨g1, g2, g3, g4⟩ := backupFileLoop_facts env source code hmk hcf
      (find_voice_files source code).2
      (backupFolderLoop env source code (find_voice_files source code).1 st0 0).2.1
      0 htoc f3
    refine ⟨_, ?_, g3, g4 (Or.inl (f4 (Or.inr hne)))⟩
    simp only [backupCopyPhase, f1, g1, f2, g2, hwi, Option.getD_some]
    simp
  obtain ⟨cs0, hcs0⟩ := hstore
  match hg0 : getAt [code] store with
  | some e0 =>
    have hrm : BInv code (removeAt [code] store) := by
      have hnone : getAt [code] (removeAt [code] store) = none :=
        getAt_removeAt_self [code] store hwf_store (by simp) (by rw [hg0]; rfl)
      refine ⟨?_, ?_, Or.inl hnone⟩
      · rw [hcs0, removeAt_dir_single]
        exact ⟨_, rfl⟩
      · intro c hc
        rw [getAt_of_head_none hnone ["backup_info.txt"]] at hc
        cases hc
    obtain ⟨store', hrun, hinv', hdl'⟩ := hphase _ hrm
    refine ⟨store', ?_, hfinal store' hinv' hdl', hguard⟩
    rw [backup_files]
    rw [if_neg (by simp [hie])]
    rw [if_neg (by simp [hie])]
    rw [hg0]
    rw [hro, if_pos rfl]
    exact hrun
  | none =>
    have hstart : BInv code store := by
      refine ⟨⟨cs0, hcs0⟩, ?_, Or.inl hg0⟩
      intro c hc
      rw [getAt_of_head_none hg0 ["backup_info.txt"]] at hc
      cases hc
    obtain ⟨store', hrun, hinv', hdl'⟩ := hphase _ hstart
    refine ⟨store', ?_, hfinal store' hinv' hdl', hguard⟩
    rw [backup_files]
    rw [if_neg (by simp [hie])]
    rw [if_neg (by simp [hie])]
    rw [hg0]
    exact hrun

/-- Witness: capturing `de` from a tree with one folder and one control
file into an empty store, with the manifest write failing, reports
`done 1 1` with the current build id, the snapshot is listed with an
empty build id, and the guard accepts it against a different build. -/
theorem backup_manifest_write_failure_witness :
    (∃ store',
      backup_files ⟨true, fun _ => true, fun _ => true, fun _ => true, false⟩
          sampleDelRoot (.dir []) (some "100") "de" =
        (.done 1 1 "100", store') ∧
      (⟨"de", ""⟩ : BackupInfo) ∈ refresh_backups (some store') ∧
      (∀ s', check_version_match ⟨"de", ""⟩ s' = none)) := by
  obtain ⟨store', h1, h2, h3⟩ := backup_manifest_write_failure
    ⟨true, fun _ => true, fun _ => true, fun _ => true, false⟩
    sampleDelRoot (.dir []) "100" "de"
    sampleDelRoot_wf Wf.dirNil ⟨[], rfl⟩ rfl (fun _ => rfl) (fun _ => rfl)
    (fun _ => rfl) rfl (by rw [sampleDelRoot_scan]; simp) (by decide)
  refine ⟨store', ?_, h2, h3⟩
  rw [sampleDelRoot_scan] at h1
  simpa using h1

end VoiceSwitcher
